import Mathlib

/-!
Shallow embedding of `src/formats/microdvd.rs` (the MicroDVD subtitle
parser/serializer of the `subparse` crate).

Modelling conventions:
* Rust `i64` is modelled as `Int` (no claim depends on 64-bit overflow).
* Rust `f64` frame-rate arithmetic is idealized as exact `Rat` arithmetic;
  the `as i64` cast is modelled as truncation toward zero (`ratTrunc`).
* Rust `char::to_lowercase`/`to_uppercase`/`is_uppercase` are modelled on
  their ASCII subset (`charToLower`/`charToUpper`/`charIsUpper` below).
* `HashSet<MdvdFormatting>` is modelled as a canonical (strictly sorted,
  duplicate-free) list of strings; its iteration order (unspecified in the
  code, which uses a randomized hasher) is modelled as the sorted order.
* Byte sequences (`Vec<u8>` holding UTF-8) are modelled as `String`.
-/

namespace Subparse

/-! ### Character / string helpers (`MdvdFormatting` impl)

Rust's `char::to_lowercase` / `char::to_uppercase` / `char::is_uppercase` are
modelled on their ASCII subset (the same subset Lean's core
`Char.toLower` / `Char.toUpper` / `Char.isUpper` implement); the definitions
below restate that ASCII behavior over `Char.toNat` so the proofs can reason
about code points directly. -/

/-- ASCII model of Rust `char::to_lowercase` (single-character result). -/
def charToLower (c : Char) : Char :=
  if 65 ≤ c.toNat ∧ c.toNat ≤ 90 then Char.ofNat (c.toNat + 32) else c

/-- ASCII model of Rust `char::to_uppercase` (single-character result). -/
def charToUpper (c : Char) : Char :=
  if 97 ≤ c.toNat ∧ c.toNat ≤ 122 then Char.ofNat (c.toNat - 32) else c

/-- ASCII model of Rust `char::is_uppercase`. -/
def charIsUpper (c : Char) : Bool := decide (65 ≤ c.toNat ∧ c.toNat ≤ 90)

/-- `MdvdFormatting::lowercase_first_char`: lowercases the first char, leaves
the rest untouched. -/
def lowercase_first_char (s : String) : String :=
  match s.data with
  | [] => ""
  | c :: cs => String.mk (charToLower c :: cs)

/-- `MdvdFormatting::uppercase_first_char`: uppercases the first char, leaves
the rest untouched. -/
def uppercase_first_char (s : String) : String :=
  match s.data with
  | [] => ""
  | c :: cs => String.mk (charToUpper c :: cs)

/-- `MdvdFormatting` has a single variant `Unknown(String)`; it is modelled as
its payload string. -/
abbrev MdvdFormatting := String

/-- `impl From<String> for MdvdFormatting`: stores the string with its first
char lowercased. -/
def mdvdFormattingFrom (f : String) : MdvdFormatting := lowercase_first_char f

/-- `MdvdFormatting::to_formatting_string` (composed with
`to_formatting_string_intern`, which just returns the payload). -/
def to_formatting_string (f : MdvdFormatting) (multiline : Bool) : String :=
  match multiline with
  | true => uppercase_first_char f
  | false => lowercase_first_char f

/-! ### Data model -/

/-- `struct MdvdLine`. -/
structure MdvdLine where
  start_frame : Int
  end_frame : Int
  formatting : List MdvdFormatting
  text : String
deriving DecidableEq, Repr

/-- `struct MdvdFile`. -/
structure MdvdFile where
  fps : Rat
  v : List MdvdLine
deriving DecidableEq, Repr

/-! ### The line grammar (combine parsers, as plain recursive functions) -/

def isDigitChar (c : Char) : Bool := decide (48 ≤ c.toNat ∧ c.toNat ≤ 57)

def digitVal (c : Char) : Nat := c.toNat - 48

/-- Longest prefix of decimal digits. -/
def takeDigits : List Char → List Char × List Char
  | [] => ([], [])
  | c :: cs =>
    if isDigitChar c then
      let p := takeDigits cs
      (c :: p.1, p.2)
    else ([], c :: cs)

def digitsToNat (ds : List Char) : Nat := ds.foldl (fun a c => a * 10 + digitVal c) 0

/-- Modelled from the spec: the `INT` token of the input grammar
(`"{" INT "}" "{" INT "}"`, §6).  The function `number_i64` lives in
`src/formats/common.rs`, which is not part of the given sources; it is
modelled as a parser for one or more decimal digits. -/
def number_i64 (cs : List Char) : Option (Int × List Char) :=
  match takeDigits cs with
  | ([], _) => none
  | (ds, rest) => some ((digitsToNat ds : Int), rest)

/-- Longest prefix of characters that are not a closing brace
(`many(satisfy(|c| c != '\x7d'))`). -/
def takeNonBrace : List Char → List Char × List Char
  | [] => ([], [])
  | c :: cs =>
    if c = '\x7d' then ([], c :: cs)
    else
      let p := takeNonBrace cs
      (c :: p.1, p.2)

/-- `MdvdFile::parse_sub_info`: matches `\x7b[^\x7d]*\x7d` and returns the
content between the braces. -/
def parse_sub_info (cs : List Char) : Option (String × List Char) :=
  match cs with
  | '\x7b' :: rest =>
    match takeNonBrace rest with
    | (content, '\x7d' :: rest2) => some (String.mk content, rest2)
    | _ => none
  | _ => none

theorem takeNonBrace_suffix_le (cs : List Char) : (takeNonBrace cs).2.length ≤ cs.length := by
  induction cs with
  | nil => simp [takeNonBrace]
  | cons c cs ih =>
    simp only [takeNonBrace]
    split
    · simp
    · simpa using Nat.le_succ_of_le ih

theorem parse_sub_info_length {cs : List Char} {t : String} {rest : List Char}
    (h : parse_sub_info cs = some (t, rest)) : rest.length < cs.length := by
  unfold parse_sub_info at h
  split at h
  · next cs' =>
    split at h
    · next content rest2 hb =>
      injection h with h'
      have h2 : rest2 = rest := congrArg Prod.snd h'
      have hle : (takeNonBrace cs').2.length ≤ cs'.length := takeNonBrace_suffix_le cs'
      rw [hb] at hle
      rw [← h2]
      simp only [List.length_cons] at hle ⊢
      omega
    · exact absurd h (by simp)
  · exact absurd h (by simp)

/-- `many(try(parse_sub_info))`, fuel-indexed so the recursion is structural
(each parsed block consumes at least two characters, so `cs.length` fuel is
enough and the fuel-exhausted base case is never reached; see
`parseManyInfos_eq`). -/
def parseManyInfosF : Nat → List Char → List String × List Char
  | 0, cs => ([], cs)
  | fuel + 1, cs =>
    match parse_sub_info cs with
    | none => ([], cs)
    | some (t, rest) =>
      let p := parseManyInfosF fuel rest
      (t :: p.1, p.2)

/-- `many(try(parse_sub_info))`: the maximal prefix of complete tag blocks. -/
def parseManyInfos (cs : List Char) : List String × List Char :=
  parseManyInfosF cs.length cs

theorem parseManyInfosF_nil (fuel : Nat) : parseManyInfosF fuel [] = ([], []) := by
  cases fuel with
  | zero => rfl
  | succ f => rfl

theorem parseManyInfosF_succ (fuel : Nat) (cs : List Char) :
    parseManyInfosF (fuel + 1) cs =
      match parse_sub_info cs with
      | none => ([], cs)
      | some (t, rest) => (t :: (parseManyInfosF fuel rest).1, (parseManyInfosF fuel rest).2) :=
  rfl

theorem parseManyInfosF_congr :
    ∀ (fuel1 fuel2 : Nat) (cs : List Char), cs.length ≤ fuel1 → cs.length ≤ fuel2 →
      parseManyInfosF fuel1 cs = parseManyInfosF fuel2 cs := by
  intro fuel1
  induction fuel1 with
  | zero =>
    intro fuel2 cs h1 _
    have : cs = [] := List.length_eq_zero.mp (Nat.le_zero.mp h1)
    subst this
    rw [parseManyInfosF_nil, parseManyInfosF_nil]
  | succ a ih =>
    intro fuel2 cs h1 h2
    cases cs with
    | nil => rw [parseManyInfosF_nil, parseManyInfosF_nil]
    | cons c cs' =>
      cases fuel2 with
      | zero => exact absurd h2 (by simp)
      | succ b =>
        rw [parseManyInfosF_succ a (c :: cs'), parseManyInfosF_succ b (c :: cs')]
        cases hp : parse_sub_info (c :: cs') with
        | none => rfl
        | some p =>
          obtain ⟨t, rest⟩ := p
          have hlt : rest.length < (c :: cs').length := parse_sub_info_length hp
          show (t :: (parseManyInfosF a rest).1, (parseManyInfosF a rest).2) =
            (t :: (parseManyInfosF b rest).1, (parseManyInfosF b rest).2)
          rw [ih b rest (by simp at hlt h1 ⊢; omega) (by simp at hlt h2 ⊢; omega)]

/-- The recursion equation of `parseManyInfos` (the shape of the original
well-founded definition). -/
theorem parseManyInfos_eq (cs : List Char) :
    parseManyInfos cs =
      match parse_sub_info cs with
      | none => ([], cs)
      | some (t, rest) => (t :: (parseManyInfos rest).1, (parseManyInfos rest).2) := by
  cases cs with
  | nil =>
    show parseManyInfosF 0 [] = _
    rw [parseManyInfosF_nil]
    rfl
  | cons c cs' =>
    show parseManyInfosF (cs'.length + 1) (c :: cs') = _
    rw [parseManyInfosF_succ cs'.length (c :: cs')]
    cases hp : parse_sub_info (c :: cs') with
    | none => rfl
    | some p =>
      obtain ⟨t, rest⟩ := p
      have hlt : rest.length < (c :: cs').length := parse_sub_info_length hp
      show (t :: (parseManyInfosF cs'.length rest).1, (parseManyInfosF cs'.length rest).2) =
        (t :: (parseManyInfos rest).1, (parseManyInfos rest).2)
      rw [parseManyInfosF_congr cs'.length rest.length rest (by simp at hlt ⊢; omega) le_rfl]
      rfl

/-- `many(satisfy(|c| c != '|'))`: the literal text of one segment. -/
def takeText : List Char → List Char × List Char
  | [] => ([], [])
  | c :: cs =>
    if c = '|' then ([], c :: cs)
    else
      let p := takeText cs
      (c :: p.1, p.2)

/-- `MdvdFile::parse_single_line`: tag blocks followed by the segment text. -/
def parse_single_line (cs : List Char) : (List String × String) × List Char :=
  let p := parseManyInfos cs
  let q := takeText p.2
  ((p.1, String.mk q.1), q.2)

theorem takeText_suffix_le (cs : List Char) : (takeText cs).2.length ≤ cs.length := by
  induction cs with
  | nil => simp [takeText]
  | cons c cs ih =>
    simp only [takeText]
    split
    · simp
    · simpa using Nat.le_succ_of_le ih

theorem parseManyInfosF_suffix_le (fuel : Nat) :
    ∀ cs, (parseManyInfosF fuel cs).2.length ≤ cs.length := by
  induction fuel with
  | zero => intro cs; exact le_rfl
  | succ f ih =>
    intro cs
    unfold parseManyInfosF
    cases hp : parse_sub_info cs with
    | none => exact le_rfl
    | some p =>
      obtain ⟨t, rest⟩ := p
      simp only []
      exact Nat.le_of_lt (Nat.lt_of_le_of_lt (ih rest) (parse_sub_info_length hp))

theorem parseManyInfos_suffix_le (cs : List Char) : (parseManyInfos cs).2.length ≤ cs.length :=
  parseManyInfosF_suffix_le cs.length cs

theorem parse_single_line_suffix_le (cs : List Char) :
    (parse_single_line cs).2.length ≤ cs.length := by
  unfold parse_single_line
  exact Nat.le_trans (takeText_suffix_le _) (parseManyInfos_suffix_le cs)

/-- `sep_by(parse_single_line, char('|'))`, fuel-indexed so the recursion is
structural (each recursive step consumes the separating pipe, so
`cs.length + 1` fuel is enough; see `parseSegments_eq`). -/
def parseSegmentsF : Nat → List Char → List (List String × String) × List Char
  | 0, cs => ([], cs)
  | fuel + 1, cs =>
    match parse_single_line cs with
    | (seg, c :: rest) =>
      if c = '|' then
        let p := parseSegmentsF fuel rest
        (seg :: p.1, p.2)
      else ([seg], c :: rest)
    | (seg, []) => ([seg], [])

/-- `sep_by(parse_single_line, char('|'))`: one segment, then further segments
after each separating pipe.  (The element parser always succeeds, so the
separated list always has at least one element.) -/
def parseSegments (cs : List Char) : List (List String × String) × List Char :=
  parseSegmentsF (cs.length + 1) cs

theorem parseSegmentsF_succ (fuel : Nat) (cs : List Char) :
    parseSegmentsF (fuel + 1) cs =
      match parse_single_line cs with
      | (seg, c :: rest) =>
        if c = '|' then (seg :: (parseSegmentsF fuel rest).1, (parseSegmentsF fuel rest).2)
        else ([seg], c :: rest)
      | (seg, []) => ([seg], []) := rfl

theorem parseSegmentsF_congr :
    ∀ (fuel1 fuel2 : Nat) (cs : List Char), cs.length < fuel1 → cs.length < fuel2 →
      parseSegmentsF fuel1 cs = parseSegmentsF fuel2 cs := by
  intro fuel1
  induction fuel1 with
  | zero => intro fuel2 cs h1 _; exact absurd h1 (Nat.not_lt_zero _)
  | succ a ih =>
    intro fuel2 cs h1 h2
    cases fuel2 with
    | zero => exact absurd h2 (Nat.not_lt_zero _)
    | succ b =>
      rw [parseSegmentsF_succ a cs, parseSegmentsF_succ b cs]
      cases hp : parse_single_line cs with
      | mk seg r =>
        have hle : r.length ≤ cs.length := by
          have := parse_single_line_suffix_le cs
          rw [hp] at this
          exact this
        cases r with
        | nil => rfl
        | cons c rest =>
          show (if c = '|' then
                  (seg :: (parseSegmentsF a rest).1, (parseSegmentsF a rest).2)
                else ([seg], c :: rest)) =
               (if c = '|' then
                  (seg :: (parseSegmentsF b rest).1, (parseSegmentsF b rest).2)
                else ([seg], c :: rest))
          simp only [List.length_cons] at hle
          by_cases hc : c = '|'
          · rw [if_pos hc, if_pos hc, ih b rest (by omega) (by omega)]
          · rw [if_neg hc, if_neg hc]

/-- The recursion equation of `parseSegments` (the shape of the original
well-founded definition, with the pipe test written as an `if`). -/
theorem parseSegments_eq (cs : List Char) :
    parseSegments cs =
      match parse_single_line cs with
      | (seg, c :: rest) =>
        if c = '|' then (seg :: (parseSegments rest).1, (parseSegments rest).2)
        else ([seg], c :: rest)
      | (seg, []) => ([seg], []) := by
  show parseSegmentsF (cs.length + 1) cs = _
  rw [parseSegmentsF_succ cs.length cs]
  cases hp : parse_single_line cs with
  | mk seg r =>
    have hle : r.length ≤ cs.length := by
      have := parse_single_line_suffix_le cs
      rw [hp] at this
      exact this
    cases r with
    | nil => rfl
    | cons c rest =>
      show (if c = '|' then
              (seg :: (parseSegmentsF cs.length rest).1, (parseSegmentsF cs.length rest).2)
            else ([seg], c :: rest)) =
           (if c = '|' then
              (seg :: (parseSegments rest).1, (parseSegments rest).2)
            else ([seg], c :: rest))
      simp only [List.length_cons] at hle
      by_cases hc : c = '|'
      · rw [if_pos hc, if_pos hc,
          parseSegmentsF_congr cs.length (rest.length + 1) rest (by omega) (by omega)]
        rfl
      · rw [if_neg hc, if_neg hc]

/-- `MdvdFile::is_container_line_formatting`: a tag string is container-line
("group") scoped when its first character is uppercase. -/
def is_container_line_formatting (f : String) : Bool :=
  match f.data with
  | [] => false
  | c :: _ => charIsUpper c

/-- `MdvdFile::construct_mdvd_lines`: split each segment's tag strings into
container-line and single-line formatting (by first-character case), collect
all container-line tags across segments in encounter order, and build one
`MdvdLine` per segment whose formatting is the container-line tags followed by
the segment's own single-line tags (all normalized by `From`, which lowercases
the first character). -/
def construct_mdvd_lines (start_frame end_frame : Int)
    (fmt_strs_and_lines : List (List String × String)) : List MdvdLine :=
  let cline_fmts : List MdvdFormatting :=
    (fmt_strs_and_lines.map
      (fun p => (p.1.filter is_container_line_formatting).map mdvdFormattingFrom)).flatten
  fmt_strs_and_lines.map (fun p =>
    { start_frame := start_frame, end_frame := end_frame,
      text := p.2,
      formatting := cline_fmts ++
        (p.1.filter (fun f => ! is_container_line_formatting f)).map mdvdFormattingFrom })

/-- The leading `"\x7b" INT "\x7d" "\x7b" INT "\x7d"` of a container line. -/
def parse_header (cs : List Char) : Option (Int × Int × List Char) :=
  match cs with
  | '\x7b' :: r1 =>
    match number_i64 r1 with
    | some (sf, '\x7d' :: '\x7b' :: r2) =>
      match number_i64 r2 with
      | some (ef, '\x7d' :: r3) => some (sf, ef, r3)
      | _ => none
    | _ => none
  | _ => none

/-- `MdvdFile::parse_container_line`: header, pipe-separated segments, then
end of input.  (The segment parser consumes every remaining character, so the
`eof` check is shown below to be vacuous; it is kept for faithfulness.) -/
def parse_container_line (s : String) : Option (List MdvdLine) :=
  match parse_header s.data with
  | none => none
  | some (sf, ef, rest) =>
    match parseSegments rest with
    | (segs, []) => some (construct_mdvd_lines sf ef segs)
    | _ => none

/-! ### Splitting the input into physical lines (`str::lines`) -/

/-- Full split on the newline character. -/
def splitNl : List Char → List (List Char)
  | [] => [[]]
  | c :: cs =>
    if c = '\n' then [] :: splitNl cs
    else
      match splitNl cs with
      | [] => [[c]]
      | l :: ls => (c :: l) :: ls

/-- `split_terminator`: a final empty piece (produced by a trailing
terminator, or by an empty input) is dropped. -/
def dropTrailingEmpty (ls : List (List Char)) : List (List Char) :=
  if ls.getLast? = some [] then ls.dropLast else ls

/-- `str::lines` removes one trailing carriage return from each piece. -/
def stripCR (l : List Char) : List Char :=
  if l.getLast? = some '\r' then l.dropLast else l

/-- Rust `str::lines`: split on the newline character, drop the final empty
piece produced by a trailing terminator, and strip one trailing carriage
return from each piece. -/
def rustLines (s : String) : List String :=
  (dropTrailingEmpty (splitNl s.data)).map (fun l => String.mk (stripCR l))

/-- Modelled from the spec: strip a leading UTF-8 byte-order mark if present
(§4.1 step 1).  The helper `split_bom` lives in `src/formats/common.rs`,
which is not part of the given sources. -/
def split_bom (s : String) : String :=
  match s.data with
  | '\uFEFF' :: rest => String.mk rest
  | _ => s

/-- The loop body of `MdvdFile::parse_file`: parse each physical line in
order, starting at (0-based) line number `n`; the first failing line aborts
the whole parse with `ErrorAtLine(line_num)`, modelled as `Except.error
line_num`. -/
def parseLinesFrom (n : Nat) : List String → Except Nat (List MdvdLine)
  | [] => Except.ok []
  | l :: ls =>
    match parse_container_line l with
    | none => Except.error n
    | some v =>
      match parseLinesFrom (n + 1) ls with
      | Except.error e => Except.error e
      | Except.ok vs => Except.ok (v ++ vs)

/-- `MdvdFile::parse_file`: strip the BOM, split into physical lines, parse
each line, and collect all resulting `MdvdLine`s with the default 25 fps. -/
def parse_file (i : String) : Except Nat MdvdFile :=
  match parseLinesFrom 0 (rustLines (split_bom i)) with
  | Except.error n => Except.error n
  | Except.ok v => Except.ok { fps := 25, v := v }

/-! ### Canonical sets of formatting tags (`HashSet<MdvdFormatting>`)

The code collects each line's formatting into a `HashSet` and intersects /
subtracts those sets; a `HashSet`'s iteration order is unspecified.  The model
represents such a set canonically as its strictly sorted, duplicate-free list
of elements, so that iteration order is the sorted order. -/

/-- Lexicographic comparison of char lists by code point (the iteration order
chosen for the canonical set model; any fixed order would do). -/
def charListLt : List Char → List Char → Bool
  | [], [] => false
  | [], _ :: _ => true
  | _ :: _, [] => false
  | a :: as, b :: bs =>
    if a.toNat < b.toNat then true
    else if b.toNat < a.toNat then false
    else charListLt as bs

def strLt (a b : String) : Bool := charListLt a.data b.data

/-- Insert into a strictly sorted list, dropping duplicates. -/
def insSet (x : String) : List String → List String
  | [] => [x]
  | y :: ys =>
    if strLt x y then x :: y :: ys
    else if x = y then y :: ys
    else y :: insSet x ys

/-- `formatting.into_iter().collect::<HashSet<_>>()`. -/
def setOfList (l : List String) : List String := l.foldr insSet []

/-- `HashSet::intersection` (result listed in the first argument's order). -/
def interS (a b : List String) : List String := a.filter (fun x => decide (x ∈ b))

/-- `HashSet::difference` (result listed in the first argument's order). -/
def diffS (a b : List String) : List String := a.filter (fun x => decide (x ∉ b))

/-! ### The serializer (`MdvdFile::to_data`) -/

/-- The sort key of `sorted_list.sort_by_key(|line| (line.start_frame,
line.end_frame))`. -/
def lineKey (l : MdvdLine) : Int × Int := (l.start_frame, l.end_frame)

/-- Lexicographic order on the key pairs (Rust's `Ord` for `(i64, i64)`). -/
def pairLe (a b : Int × Int) : Prop := a.1 < b.1 ∨ (a.1 = b.1 ∧ a.2 ≤ b.2)

/-- Strict lexicographic order on the key pairs. -/
def pairLt (a b : Int × Int) : Prop := a.1 < b.1 ∨ (a.1 = b.1 ∧ a.2 < b.2)

instance (a b : Int × Int) : Decidable (pairLe a b) := by unfold pairLe; infer_instance

instance (a b : Int × Int) : Decidable (pairLt a b) := by unfold pairLt; infer_instance

/-- Insert a line into a list sorted by `lineKey`, before the first element
whose key is not smaller (so insertion keeps equal keys in first-come order). -/
def sortInsert (x : MdvdLine) : List MdvdLine → List MdvdLine
  | [] => [x]
  | y :: ys => if pairLe (lineKey x) (lineKey y) then x :: y :: ys else y :: sortInsert x ys

/-- `sort_by_key` is a stable sort; a stable sort by a given key is unique as
a function, so it is modelled by stable insertion sort. -/
def sortLines (v : List MdvdLine) : List MdvdLine := v.foldr sortInsert []

/-- `itertools::group_by` over the sorted list: maximal runs of consecutive
lines sharing a `(start_frame, end_frame)` key. -/
def groupRuns : List MdvdLine → List ((Int × Int) × List MdvdLine)
  | [] => []
  | x :: xs =>
    match groupRuns xs with
    | [] => [(lineKey x, [x])]
    | (k, g) :: rest =>
      if lineKey x = k then (k, x :: g) :: rest
      else (lineKey x, [x]) :: (k, g) :: rest

/-- Decimal digits of a natural number (Rust `i64::to_string`, helper);
fuel-indexed so the recursion is structural (`n / 10 < n` for positive `n`,
so `n` fuel is enough). -/
def natToDigitsF : Nat → Nat → List Char → List Char
  | 0, _, acc => acc
  | fuel + 1, n, acc =>
    if n = 0 then acc else natToDigitsF fuel (n / 10) (Char.ofNat (n % 10 + 48) :: acc)

def natToDigits (n : Nat) : List Char := if n = 0 then ['0'] else natToDigitsF n n []

/-- Rust `i64::to_string` (via `ToString` in `start_frame.to_string()`). -/
def intToDecimal (i : Int) : String :=
  if i < 0 then String.mk ('-' :: natToDigits i.natAbs) else String.mk (natToDigits i.natAbs)

/-- Concatenation of a list of strings (the `push_back` sequence of the
`LinkedList` builder). -/
def concatAll : List String → String
  | [] => ""
  | s :: ss => s ++ concatAll ss

/-- Join with a separator pushed before every piece but the first
(the `if i != 0` pattern of the two loops in `to_data`). -/
def joinSep (sep : String) : List String → String
  | [] => ""
  | [p] => p
  | p :: ps => p ++ sep ++ joinSep sep ps

/-- One rendered tag block `"\x7b" ++ tag ++ "\x7d"`, group-scoped
(`multiline = true`, uppercased first char) or line-scoped. -/
def renderTagBlock (t : String) (multiline : Bool) : String :=
  "\x7b" ++ to_formatting_string t multiline ++ "\x7d"

/-- One member of a container line: its individual tags (line-scoped) followed
by its text. -/
def renderMember (ind : List String) (text : String) : String :=
  concatAll (ind.map (fun t => renderTagBlock t false)) ++ text

/-- The fold computing the common formatting:
`formattings.iter().fold(None, |acc, set| ...)` — `None` is replaced by the
first set, then everything is intersected. -/
def commonFold (sets : List (List String)) : Option (List String) :=
  sets.foldl
    (fun acc s =>
      match acc with
      | none => some s
      | some a => some (interS a s)) none

/-- The common formatting of one group: empty for a group of one, otherwise
the fold above (whose `unwrap` cannot panic, the group being non-empty:
`Option.getD` is used in place of `unwrap`). -/
def commonOfGroup (glen : Nat) (formattings : List (List String)) : List String :=
  if glen = 1 then [] else (commonFold formattings).getD []

/-- The body of the `group_by` loop in `MdvdFile::to_data`: render one
container line for the run `group` of lines sharing the key
`(start_frame, end_frame)`. -/
def renderGroup (key : Int × Int) (group : List MdvdLine) : String :=
  let formattings := group.map (fun l => setOfList l.formatting)
  let texts := group.map (fun l => l.text)
  let common := commonOfGroup group.length formattings
  let individuals := formattings.map (fun s => diffS s common)
  "\x7b" ++ intToDecimal key.1 ++ "\x7d" ++ "\x7b" ++ intToDecimal key.2 ++ "\x7d" ++
    concatAll (common.map (fun t => renderTagBlock t true)) ++
    joinSep "|" ((individuals.zip texts).map (fun p => renderMember p.1 p.2))

/-- `MdvdFile::to_data`: sort a copy of the lines by key, group into maximal
runs of equal keys, render each run, and join the rendered container lines
with a newline before every run but the first (= `intercalate`). -/
def to_data (f : MdvdFile) : String :=
  joinSep "\n" ((groupRuns (sortLines f.v)).map (fun g => renderGroup g.1 g.2))

/-! ### The entry access layer (`SubtitleEntry`, timestamps) -/

/-- Modelled from the spec: the generic timed-entry exchange type
(§6: an ordered sequence of `\x7b start_ms, end_ms, text: optional string \x7d`);
`SubtitleEntry`/`TimeSpan`/`TimePoint` live in the crate root and
`timetypes.rs`, which are not part of the given sources.  A `TimePoint`
created by `from_msecs` is collapsed to its millisecond value. -/
structure SubtitleEntry where
  start_ms : Int
  end_ms : Int
  line : Option String
deriving DecidableEq, Repr

/-- Truncation toward zero of a rational (Rust's `as i64` cast on `f64`,
with the `f64` arithmetic idealized as exact rational arithmetic;
`Int.tdiv` is T-division, which rounds toward zero). -/
def ratTrunc (q : Rat) : Int := Int.tdiv q.num (q.den : Int)

/-- `MdvdLine::to_subtitle_entry`: frames are converted to milliseconds by
`(frame as f64 * 1000.0 / fps) as i64`, and the line text is always present. -/
def to_subtitle_entry (l : MdvdLine) (fps : Rat) : SubtitleEntry :=
  { start_ms := ratTrunc ((l.start_frame : Rat) * 1000 / fps),
    end_ms := ratTrunc ((l.end_frame : Rat) * 1000 / fps),
    line := some l.text }

/-- `MdvdFile::get_subtitle_entries` (always `Ok` in the code; the `Result`
wrapper is dropped). -/
def get_subtitle_entries (f : MdvdFile) : List SubtitleEntry :=
  f.v.map (fun l => to_subtitle_entry l f.fps)

/-- Possible outcomes of `MdvdFile::update_subtitle_entries`, whose Rust type
is `SubtitleParserResult<()>` but whose length check is an `assert_eq!`:
`panicked` models the assertion failure (a process abort, not a return), `err`
models a returned `Err` value (never produced by the code), and `ok` carries
the updated file (the mutated `self`). -/
inductive UpdateResult
  | panicked
  | err (msg : String)
  | ok (f : MdvdFile)
deriving DecidableEq, Repr

/-- `MdvdFile::update_subtitle_entries`: `assert_eq!(new_subtitle_entries.len(),
self.v.len())`, then for each line in order take the next entry, set
`start_frame`/`end_frame` from the entry's times via
`(timespan.secs_f64() * fps) as i64` (`secs_f64` of a `from_msecs` time point
is `msecs / 1000.0`), and overwrite the text only when the entry has one. -/
def update_subtitle_entries (f : MdvdFile) (es : List SubtitleEntry) : UpdateResult :=
  if es.length = f.v.length then
    UpdateResult.ok
      { fps := f.fps,
        v := (f.v.zip es).map (fun p =>
          { start_frame := ratTrunc ((p.2.start_ms : Rat) / 1000 * f.fps),
            end_frame := ratTrunc ((p.2.end_ms : Rat) / 1000 * f.fps),
            formatting := p.1.formatting,
            text :=
              match p.2.line with
              | some t => t
              | none => p.1.text }) }
  else UpdateResult.panicked

/-- Modelled from the spec: `frame_to_time(frame, fps) = floor_to_int(frame *
1000.0 / fps)` milliseconds (§4.3), with `floor_to_int` read — per the same
section's note that both conversions are "truncating (toward zero), not
rounding" — as truncation toward zero. -/
def frame_to_time (frame : Int) (fps : Rat) : Int := ratTrunc ((frame : Rat) * 1000 / fps)

/-- Modelled from the spec: `time_to_frame(seconds, fps) = floor_to_int(seconds
* fps)` (§4.3), with `floor_to_int` read as truncation toward zero. -/
def time_to_frame (seconds : Rat) (fps : Rat) : Int := ratTrunc (seconds * fps)

/-! ### Lemmas: the lexicographic key order -/

theorem pairLe_refl (a : Int × Int) : pairLe a a := Or.inr ⟨rfl, le_rfl⟩

theorem pairLe_total (a b : Int × Int) : pairLe a b ∨ pairLe b a := by
  obtain ⟨a1, a2⟩ := a
  obtain ⟨b1, b2⟩ := b
  unfold pairLe
  simp only []
  omega

theorem pairLe_trans {a b c : Int × Int} (h1 : pairLe a b) (h2 : pairLe b c) : pairLe a c := by
  obtain ⟨a1, a2⟩ := a
  obtain ⟨b1, b2⟩ := b
  obtain ⟨c1, c2⟩ := c
  unfold pairLe at h1 h2 ⊢
  simp only [] at h1 h2 ⊢
  omega

theorem pairLt_of_pairLe_of_ne {a b : Int × Int} (h1 : pairLe a b) (h2 : a ≠ b) :
    pairLt a b := by
  obtain ⟨a1, a2⟩ := a
  obtain ⟨b1, b2⟩ := b
  unfold pairLe at h1
  unfold pairLt
  simp only [ne_eq, Prod.mk.injEq] at h2
  simp only [] at h1 ⊢
  omega

theorem pairLt_of_not_pairLe {a b : Int × Int} (h : ¬ pairLe a b) : pairLt b a := by
  obtain ⟨a1, a2⟩ := a
  obtain ⟨b1, b2⟩ := b
  unfold pairLe at h
  unfold pairLt
  simp only [] at h ⊢
  omega

theorem pairLe_of_not_pairLe {a b : Int × Int} (h : ¬ pairLe a b) : pairLe b a := by
  obtain ⟨a1, a2⟩ := a
  obtain ⟨b1, b2⟩ := b
  unfold pairLe at h ⊢
  simp only [] at h ⊢
  omega

theorem ne_of_not_pairLe {a b : Int × Int} (h : ¬ pairLe a b) : b ≠ a := by
  obtain ⟨a1, a2⟩ := a
  obtain ⟨b1, b2⟩ := b
  unfold pairLe at h
  simp only [ne_eq, Prod.mk.injEq]
  simp only [] at h
  omega

/-! ### Lemmas: the stable insertion sort -/

theorem mem_sortInsert (x y : MdvdLine) (l : List MdvdLine) :
    y ∈ sortInsert x l ↔ y = x ∨ y ∈ l := by
  induction l with
  | nil => simp [sortInsert]
  | cons z l ih =>
    unfold sortInsert
    split
    · simp
    · simp only [List.mem_cons, ih]
      tauto

theorem sortInsert_perm (x : MdvdLine) (l : List MdvdLine) :
    List.Perm (sortInsert x l) (x :: l) := by
  induction l with
  | nil => simp [sortInsert]
  | cons z l ih =>
    unfold sortInsert
    split
    · exact List.Perm.refl _
    · exact (List.Perm.cons z ih).trans (List.Perm.swap x z l)

theorem sortLines_perm (v : List MdvdLine) : List.Perm (sortLines v) v := by
  induction v with
  | nil => exact List.Perm.refl _
  | cons x v ih =>
    show List.Perm (sortInsert x (sortLines v)) (x :: v)
    exact (sortInsert_perm x (sortLines v)).trans (List.Perm.cons x ih)

/-- Sortedness by the key order (non-strict, so ties are allowed). -/
def SortedKeys (l : List MdvdLine) : Prop :=
  List.Pairwise (fun a b => pairLe (lineKey a) (lineKey b)) l

theorem sortInsert_sorted {x : MdvdLine} {l : List MdvdLine} (h : SortedKeys l) :
    SortedKeys (sortInsert x l) := by
  induction l with
  | nil => exact List.pairwise_singleton _ x
  | cons z l ih =>
    unfold SortedKeys at h
    rw [List.pairwise_cons] at h
    obtain ⟨hz, hl⟩ := h
    unfold sortInsert
    split
    · next hle =>
      unfold SortedKeys
      rw [List.pairwise_cons]
      refine ⟨?_, List.pairwise_cons.mpr ⟨hz, hl⟩⟩
      intro w hw
      rcases List.mem_cons.mp hw with h | h
      · exact h ▸ hle
      · exact pairLe_trans hle (hz w h)
    · next hle =>
      unfold SortedKeys
      rw [List.pairwise_cons]
      refine ⟨?_, ih hl⟩
      intro w hw
      rcases (mem_sortInsert x w l).mp hw with h | h
      · exact h ▸ pairLe_of_not_pairLe hle
      · exact hz w h

theorem sortLines_sorted (v : List MdvdLine) : SortedKeys (sortLines v) := by
  induction v with
  | nil => exact List.Pairwise.nil
  | cons x v ih => exact sortInsert_sorted ih

theorem filter_sortInsert (x : MdvdLine) (l : List MdvdLine) (k : Int × Int) :
    (sortInsert x l).filter (fun m => decide (lineKey m = k)) =
      if lineKey x = k then x :: l.filter (fun m => decide (lineKey m = k))
      else l.filter (fun m => decide (lineKey m = k)) := by
  induction l with
  | nil =>
    show [x].filter (fun m => decide (lineKey m = k)) = _
    by_cases hk : lineKey x = k
    · rw [if_pos hk]
      simp [List.filter, hk]
    · rw [if_neg hk]
      simp [List.filter, hk]
  | cons z l ih =>
    unfold sortInsert
    split
    · next hle =>
      by_cases hk : lineKey x = k
      · rw [if_pos hk]
        simp only [List.filter_cons, decide_eq_true_eq]
        rw [if_pos hk]
      · rw [if_neg hk]
        simp only [List.filter_cons, decide_eq_true_eq]
        rw [if_neg hk]
    · next hle =>
      by_cases hk : lineKey x = k
      · rw [if_pos hk]
        have hzk : lineKey z ≠ k := by
          intro hc
          exact (ne_of_not_pairLe hle) (by rw [hc, hk])
        simp only [List.filter_cons, decide_eq_true_eq]
        rw [if_neg hzk, if_neg hzk, ih, if_pos hk]
      · rw [if_neg hk]
        simp only [List.filter_cons, decide_eq_true_eq]
        rw [ih, if_neg hk]

theorem sortLines_filter_stable (v : List MdvdLine) (k : Int × Int) :
    (sortLines v).filter (fun m => decide (lineKey m = k)) =
      v.filter (fun m => decide (lineKey m = k)) := by
  induction v with
  | nil => rfl
  | cons x v ih =>
    show (sortInsert x (sortLines v)).filter _ = _
    rw [filter_sortInsert]
    by_cases hk : lineKey x = k
    · rw [if_pos hk, ih]
      simp only [List.filter_cons, decide_eq_true_eq]
      rw [if_pos hk]
    · rw [if_neg hk, ih]
      simp only [List.filter_cons, decide_eq_true_eq]
      rw [if_neg hk]

/-! ### Lemmas: grouping into maximal runs -/

theorem groupRuns_cons_of_nil {xs : List MdvdLine} (x : MdvdLine) (h : groupRuns xs = []) :
    groupRuns (x :: xs) = [(lineKey x, [x])] := by
  unfold groupRuns
  rw [h]

theorem groupRuns_cons_of_cons {xs : List MdvdLine} {k : Int × Int} {grp : List MdvdLine}
    {rest : List ((Int × Int) × List MdvdLine)} (x : MdvdLine)
    (h : groupRuns xs = (k, grp) :: rest) :
    groupRuns (x :: xs) =
      if lineKey x = k then (k, x :: grp) :: rest
      else (lineKey x, [x]) :: (k, grp) :: rest := by
  unfold groupRuns
  rw [h]

theorem groupRuns_flatten (v : List MdvdLine) :
    ((groupRuns v).map Prod.snd).flatten = v := by
  induction v with
  | nil => rfl
  | cons x xs ih =>
    cases hg : groupRuns xs with
    | nil =>
      rw [groupRuns_cons_of_nil x hg]
      rw [hg] at ih
      simp at ih
      simp [ih]
    | cons g rest =>
      obtain ⟨k, grp⟩ := g
      rw [groupRuns_cons_of_cons x hg]
      rw [hg] at ih
      by_cases hk : lineKey x = k
      · rw [if_pos hk]
        simpa using ih
      · rw [if_neg hk]
        simpa using ih

theorem groupRuns_mem_key (v : List MdvdLine) :
    ∀ g ∈ groupRuns v, g.2 ≠ [] ∧ ∀ m ∈ g.2, lineKey m = g.1 := by
  induction v with
  | nil => intro g hg; exact absurd hg (by simp [groupRuns])
  | cons x xs ih =>
    intro g hg
    cases hgr : groupRuns xs with
    | nil =>
      rw [groupRuns_cons_of_nil x hgr] at hg
      simp only [List.mem_singleton] at hg
      subst hg
      exact ⟨by simp, by intro m hm; simp at hm; subst hm; rfl⟩
    | cons g0 rest =>
      obtain ⟨k, grp⟩ := g0
      rw [groupRuns_cons_of_cons x hgr] at hg
      by_cases hk : lineKey x = k
      · rw [if_pos hk] at hg
        rcases List.mem_cons.mp hg with h | h
        · subst h
          have hold := ih (k, grp) (hgr ▸ List.mem_cons_self _ _)
          refine ⟨by simp, ?_⟩
          intro m hm
          rcases List.mem_cons.mp hm with h | h
          · subst h; exact hk
          · exact hold.2 m h
        · exact ih g (hgr ▸ List.mem_cons_of_mem _ h)
      · rw [if_neg hk] at hg
        rcases List.mem_cons.mp hg with h | h
        · subst h
          exact ⟨by simp, by intro m hm; simp at hm; subst hm; rfl⟩
        · exact ih g (hgr ▸ h)

/-- The key of the first run is the key of the first line. -/
theorem groupRuns_head_key (y : MdvdLine) (ys : List MdvdLine) :
    ∃ grp rest, groupRuns (y :: ys) = (lineKey y, grp) :: rest := by
  cases hgr : groupRuns ys with
  | nil => exact ⟨[y], [], groupRuns_cons_of_nil y hgr⟩
  | cons g0 rest =>
    obtain ⟨k, grp⟩ := g0
    by_cases hk : lineKey y = k
    · refine ⟨y :: grp, rest, ?_⟩
      rw [groupRuns_cons_of_cons y hgr, if_pos hk, hk]
    · refine ⟨[y], (k, grp) :: rest, ?_⟩
      rw [groupRuns_cons_of_cons y hgr, if_neg hk]

/-- On a list sorted by key, the run keys are strictly increasing (so the
container lines come out in ascending time order and two runs never share a
key). -/
theorem groupRuns_keys_strict (v : List MdvdLine) (hs : SortedKeys v) :
    List.Chain' pairLt ((groupRuns v).map Prod.fst) := by
  induction v with
  | nil => simp [groupRuns]
  | cons x xs ih =>
    unfold SortedKeys at hs
    rw [List.pairwise_cons] at hs
    obtain ⟨hx, hxs⟩ := hs
    have ihc := ih hxs
    cases hgr : groupRuns xs with
    | nil => rw [groupRuns_cons_of_nil x hgr]; simp
    | cons g0 rest =>
      obtain ⟨k, grp⟩ := g0
      rw [hgr] at ihc
      rw [groupRuns_cons_of_cons x hgr]
      by_cases hk : lineKey x = k
      · rw [if_pos hk]
        simpa using ihc
      · rw [if_neg hk]
        cases xs with
        | nil => exact absurd hgr (by simp [groupRuns])
        | cons y ys =>
          obtain ⟨grp', rest', hh⟩ := groupRuns_head_key y ys
          rw [hgr] at hh
          injection hh with hh1 hh2
          have hky : k = lineKey y := by
            have := congrArg Prod.fst hh1
            simpa using this
          have hle : pairLe (lineKey x) (lineKey y) := hx y (List.mem_cons_self y ys)
          have hlt : pairLt (lineKey x) k := by
            rw [hky]
            exact pairLt_of_pairLe_of_ne hle (by rw [← hky]; exact hk)
          simp only [List.map_cons, List.chain'_cons]
          exact ⟨hlt, by simpa using ihc⟩

/-! ### Lemmas: canonical tag sets -/

theorem string_data_ext {s t : String} (h : s.data = t.data) : s = t := by
  cases s
  cases t
  simp only [] at h
  rw [h]

theorem char_toNat_inj {c d : Char} (h : c.toNat = d.toNat) : c = d := by
  have h1 : Char.ofNat c.toNat = c := Char.ofNat_toNat c
  have h2 : Char.ofNat d.toNat = d := Char.ofNat_toNat d
  rw [← h1, ← h2, h]

theorem charListLt_irrefl : ∀ l : List Char, charListLt l l = false
  | [] => rfl
  | c :: cs => by
    unfold charListLt
    rw [if_neg (lt_irrefl c.toNat), if_neg (lt_irrefl c.toNat)]
    exact charListLt_irrefl cs

theorem charListLt_trans :
    ∀ l1 l2 l3 : List Char, charListLt l1 l2 = true → charListLt l2 l3 = true →
      charListLt l1 l3 = true
  | [], [], _, h1, _ => by simp [charListLt] at h1
  | [], _ :: _, [], _, h2 => by simp [charListLt] at h2
  | [], _ :: _, _ :: _, _, _ => rfl
  | _ :: _, [], _, h1, _ => by simp [charListLt] at h1
  | _ :: _, _ :: _, [], _, h2 => by simp [charListLt] at h2
  | a :: as, b :: bs, c :: cs, h1, h2 => by
    unfold charListLt at h1 h2 ⊢
    by_cases hab : a.toNat < b.toNat
    · by_cases hbc : b.toNat < c.toNat
      · rw [if_pos (by omega)]
      · rw [if_pos hab] at h1
        by_cases hcb : c.toNat < b.toNat
        · rw [if_neg hbc, if_pos hcb] at h2
          exact absurd h2 (by simp)
        · rw [if_pos (by omega)]
    · by_cases hba : b.toNat < a.toNat
      · rw [if_neg hab, if_pos hba] at h1
        exact absurd h1 (by simp)
      · rw [if_neg hab, if_neg hba] at h1
        by_cases hbc : b.toNat < c.toNat
        · rw [if_pos (by omega)]
        · by_cases hcb : c.toNat < b.toNat
          · rw [if_neg hbc, if_pos hcb] at h2
            exact absurd h2 (by simp)
          · rw [if_neg hbc, if_neg hcb] at h2
            rw [if_neg (by omega), if_neg (by omega)]
            exact charListLt_trans as bs cs h1 h2

theorem charListLt_conn :
    ∀ l1 l2 : List Char, charListLt l1 l2 = false → charListLt l2 l1 = false → l1 = l2
  | [], [], _, _ => rfl
  | [], _ :: _, h1, _ => by simp [charListLt] at h1
  | _ :: _, [], _, h2 => by simp [charListLt] at h2
  | a :: as, b :: bs, h1, h2 => by
    unfold charListLt at h1 h2
    by_cases hab : a.toNat < b.toNat
    · rw [if_pos hab] at h1
      exact absurd h1 (by simp)
    · by_cases hba : b.toNat < a.toNat
      · rw [if_pos hba] at h2
        exact absurd h2 (by simp)
      · rw [if_neg hab, if_neg hba] at h1
        rw [if_neg hba, if_neg hab] at h2
        rw [char_toNat_inj (show a.toNat = b.toNat by omega),
          charListLt_conn as bs h1 h2]

theorem strLt_irrefl (a : String) : strLt a a = false := charListLt_irrefl a.data

theorem strLt_trans {a b c : String} (h1 : strLt a b = true) (h2 : strLt b c = true) :
    strLt a c = true := charListLt_trans a.data b.data c.data h1 h2

theorem strLt_conn {a b : String} (h1 : strLt a b = false) (h2 : strLt b a = false) :
    a = b := string_data_ext (charListLt_conn a.data b.data h1 h2)

theorem strLt_asymm {a b : String} (h : strLt a b = true) : strLt b a = false := by
  by_cases h2 : strLt b a = true
  · have := strLt_trans h h2
    rw [strLt_irrefl a] at this
    exact absurd this (by simp)
  · exact Bool.not_eq_true _ ▸ (by simpa using h2)

/-- Strict sortedness in the canonical set order. -/
def StrictSorted (l : List String) : Prop := l.Pairwise (fun a b => strLt a b = true)

theorem mem_insSet (x y : String) (l : List String) :
    y ∈ insSet x l ↔ y = x ∨ y ∈ l := by
  induction l with
  | nil => simp [insSet]
  | cons z l ih =>
    unfold insSet
    split
    · simp
    · split
      · next hxz =>
        subst hxz
        simp only [List.mem_cons]
        tauto
      · simp only [List.mem_cons, ih]
        tauto

theorem mem_setOfList (t : String) (l : List String) :
    t ∈ setOfList l ↔ t ∈ l := by
  induction l with
  | nil => simp [setOfList]
  | cons x l ih =>
    show t ∈ insSet x (setOfList l) ↔ _
    rw [mem_insSet, ih]
    simp

theorem insSet_pairwise {x : String} {l : List String} (h : StrictSorted l) :
    StrictSorted (insSet x l) := by
  induction l with
  | nil => exact List.pairwise_singleton _ x
  | cons z l ih =>
    rw [StrictSorted, List.pairwise_cons] at h
    obtain ⟨hz, hl⟩ := h
    unfold insSet
    split
    · next hlt =>
      rw [StrictSorted, List.pairwise_cons]
      refine ⟨?_, List.pairwise_cons.mpr ⟨hz, hl⟩⟩
      intro w hw
      rcases List.mem_cons.mp hw with h | h
      · exact h ▸ hlt
      · exact strLt_trans hlt (hz w h)
    · split
      · next heq => exact List.pairwise_cons.mpr ⟨hz, hl⟩
      · next hlt heq =>
        rw [StrictSorted, List.pairwise_cons]
        refine ⟨?_, ih hl⟩
        intro w hw
        rcases (mem_insSet x w l).mp hw with h | h
        · subst h
          by_cases hzw : strLt z w = true
          · exact hzw
          · have h1 : strLt w z = false := by simpa using hlt
            have h2 : strLt z w = false := by simpa using hzw
            exact absurd (strLt_conn h2 h1).symm heq
        · exact hz w h

theorem setOfList_pairwise (l : List String) : StrictSorted (setOfList l) := by
  induction l with
  | nil => exact List.Pairwise.nil
  | cons x l ih => exact insSet_pairwise ih

/-- A strictly sorted list is determined by its members. -/
theorem strictSorted_eq_of_mem_iff :
    ∀ {l l' : List String}, StrictSorted l → StrictSorted l' →
      (∀ x, x ∈ l ↔ x ∈ l') → l = l'
  | [], [], _, _, _ => rfl
  | [], y :: t', _, _, hm => absurd ((hm y).mpr (List.mem_cons_self y t')) (by simp)
  | x :: t, [], _, _, hm => absurd ((hm x).mp (List.mem_cons_self x t)) (by simp)
  | x :: t, y :: t', h, h', hm => by
    rw [StrictSorted, List.pairwise_cons] at h h'
    obtain ⟨hx, ht⟩ := h
    obtain ⟨hy, ht'⟩ := h'
    have hxy : x = y := by
      rcases List.mem_cons.mp ((hm x).mp (List.mem_cons_self x t)) with h1 | h1
      · exact h1
      · rcases List.mem_cons.mp ((hm y).mpr (List.mem_cons_self y t')) with h2 | h2
        · exact h2.symm
        · have := strLt_trans (hy x h1) (hx y h2)
          rw [strLt_irrefl y] at this
          exact absurd this (by simp)
    subst hxy
    have hsub : ∀ z, z ∈ t ↔ z ∈ t' := by
      intro z
      constructor
      · intro hz
        rcases List.mem_cons.mp ((hm z).mp (List.mem_cons_of_mem x hz)) with h1 | h1
        · subst h1
          have := hx z hz
          rw [strLt_irrefl z] at this
          exact absurd this (by simp)
        · exact h1
      · intro hz
        rcases List.mem_cons.mp ((hm z).mpr (List.mem_cons_of_mem x hz)) with h1 | h1
        · subst h1
          have := hy z hz
          rw [strLt_irrefl z] at this
          exact absurd this (by simp)
        · exact h1
    rw [strictSorted_eq_of_mem_iff ht ht' hsub]

theorem mem_interS (t : String) (a b : List String) :
    t ∈ interS a b ↔ t ∈ a ∧ t ∈ b := by
  unfold interS
  rw [List.mem_filter]
  simp

theorem mem_diffS (t : String) (a b : List String) :
    t ∈ diffS a b ↔ t ∈ a ∧ t ∉ b := by
  unfold diffS
  rw [List.mem_filter]
  simp

theorem interS_pairwise {a : List String} (b : List String) (h : StrictSorted a) :
    StrictSorted (interS a b) := h.sublist (List.filter_sublist a)

theorem diffS_pairwise {a : List String} (b : List String) (h : StrictSorted a) :
    StrictSorted (diffS a b) := h.sublist (List.filter_sublist a)

theorem diffS_nil (a : List String) : diffS a [] = a := by
  unfold diffS
  rw [List.filter_eq_self]
  intro x _
  simp

theorem commonFold_cons (s : List String) (rest : List (List String)) :
    commonFold (s :: rest) = some (rest.foldl interS s) := by
  have aux : ∀ (r : List (List String)) (a : List String),
      List.foldl
        (fun acc t =>
          match acc with
          | none => some t
          | some u => some (interS u t)) (some a) r = some (r.foldl interS a) := by
    intro r
    induction r with
    | nil => intro a; rfl
    | cons s' r ih => intro a; exact ih (interS a s')
  exact aux rest s

theorem mem_foldl_interS (rest : List (List String)) (a : List String) (t : String) :
    t ∈ rest.foldl interS a ↔ (t ∈ a ∧ ∀ s ∈ rest, t ∈ s) := by
  induction rest generalizing a with
  | nil => simp
  | cons s rest ih =>
    rw [List.foldl_cons, ih, mem_interS]
    constructor
    · rintro ⟨⟨h1, h2⟩, h3⟩
      exact ⟨h1, fun s' hs' => by
        rcases List.mem_cons.mp hs' with h | h
        · exact h ▸ h2
        · exact h3 s' h⟩
    · rintro ⟨h1, h2⟩
      exact ⟨⟨h1, h2 s (List.mem_cons_self s rest)⟩,
        fun s' hs' => h2 s' (List.mem_cons_of_mem s hs')⟩

theorem foldl_interS_pairwise {a : List String} (rest : List (List String))
    (h : StrictSorted a) : StrictSorted (rest.foldl interS a) := by
  induction rest generalizing a with
  | nil => exact h
  | cons s rest ih => exact ih (interS_pairwise s h)

/-! ### Lemmas: ASCII character case -/

theorem char_toNat_ofNat {n : Nat} (h : n < 55296) : (Char.ofNat n).toNat = n := by
  have hv : n.isValidChar := Or.inl h
  rw [Char.ofNat, dif_pos hv]
  simp [Char.ofNatAux, Char.toNat, UInt32.toNat, BitVec.toNat_ofNatLt]

theorem charToLower_eq_self {c : Char} (h : charIsUpper c = false) : charToLower c = c := by
  unfold charToLower
  rw [if_neg]
  unfold charIsUpper at h
  simpa using of_decide_eq_false h

theorem charIsUpper_charToLower (c : Char) : charIsUpper (charToLower c) = false := by
  unfold charToLower
  split
  · next h =>
    have hlt : c.toNat + 32 < 55296 := by omega
    unfold charIsUpper
    rw [char_toNat_ofNat hlt]
    simp only [decide_eq_false_iff_not]
    omega
  · next h =>
    unfold charIsUpper
    simp only [decide_eq_false_iff_not]
    omega

theorem charToLower_charToLower (c : Char) : charToLower (charToLower c) = charToLower c :=
  charToLower_eq_self (charIsUpper_charToLower c)

theorem charToLower_charToUpper {c : Char} (h1 : charIsUpper c = false)
    (h2 : charIsUpper (charToUpper c) = true) : charToLower (charToUpper c) = c := by
  unfold charIsUpper at h1
  have h1' : ¬ (65 ≤ c.toNat ∧ c.toNat ≤ 90) := by simpa using of_decide_eq_false h1
  unfold charToUpper at h2 ⊢
  by_cases hr : 97 ≤ c.toNat ∧ c.toNat ≤ 122
  · rw [if_pos hr] at h2 ⊢
    have hlt : c.toNat - 32 < 55296 := by omega
    unfold charToLower
    rw [char_toNat_ofNat hlt, if_pos (by omega)]
    have : c.toNat - 32 + 32 = c.toNat := by omega
    rw [this, Char.ofNat_toNat]
  · rw [if_neg hr] at h2
    unfold charIsUpper at h2
    have := of_decide_eq_true h2
    omega

theorem charIsUpper_charToUpper_of_lower {c : Char} (h : 97 ≤ c.toNat ∧ c.toNat ≤ 122) :
    charIsUpper (charToUpper c) = true := by
  unfold charToUpper
  rw [if_pos h]
  unfold charIsUpper
  rw [char_toNat_ofNat (by omega)]
  exact decide_eq_true (by omega)

/-! ### Lemmas: truncation toward zero -/

theorem ratTrunc_eq_floor {q : Rat} (h : 0 ≤ q) : ratTrunc q = ⌊q⌋ := by
  unfold ratTrunc
  rw [Rat.floor_def]
  exact Int.tdiv_eq_ediv (Rat.num_nonneg.mpr h) (Int.ofNat_nonneg q.den)

theorem ratTrunc_eq_ceil {q : Rat} (h : ¬ 0 ≤ q) : ratTrunc q = ⌈q⌉ := by
  have hq : q ≤ 0 := le_of_not_le h
  have hneg : (0 : Rat) ≤ -q := neg_nonneg.mpr hq
  have h1 : ratTrunc (-q) = ⌊-q⌋ := ratTrunc_eq_floor hneg
  unfold ratTrunc at h1 ⊢
  rw [Rat.num_neg_eq_neg_num, Rat.den_neg_eq_den, Int.neg_tdiv] at h1
  have h2 : q.num.tdiv (q.den : Int) = -⌊-q⌋ := by omega
  rw [h2, ← Int.ceil_neg, neg_neg]

/-! ### Lemmas: success and failure of the line loop -/

theorem parseLinesFrom_ok_iff (ls : List String) (n : Nat) :
    (∃ v, parseLinesFrom n ls = Except.ok v) ↔
      ∀ l ∈ ls, ∃ w, parse_container_line l = some w := by
  induction ls generalizing n with
  | nil =>
    simp only [parseLinesFrom, List.not_mem_nil]
    exact ⟨fun _ l h => absurd h (by simp), fun _ => ⟨[], rfl⟩⟩
  | cons l ls ih =>
    simp only [parseLinesFrom]
    cases hp : parse_container_line l with
    | none =>
      constructor
      · intro ⟨v, hv⟩
        exact absurd hv (by simp)
      · intro hall
        obtain ⟨w, hw⟩ := hall l (List.mem_cons_self l ls)
        rw [hp] at hw
        exact absurd hw (by simp)
    | some v =>
      cases hq : parseLinesFrom (n + 1) ls with
      | error e =>
        constructor
        · intro ⟨v', hv⟩
          exact absurd hv (by simp)
        · intro hall
          have : ∃ v', parseLinesFrom (n + 1) ls = Except.ok v' :=
            (ih (n + 1)).mpr (fun l' hl' => hall l' (List.mem_cons_of_mem l hl'))
          obtain ⟨v', hv'⟩ := this
          rw [hq] at hv'
          exact absurd hv' (by simp)
      | ok vs =>
        constructor
        · intro _
          intro l' hl'
          rcases List.mem_cons.mp hl' with h | h
          · exact ⟨v, h ▸ hp⟩
          · exact ((ih (n + 1)).mp ⟨vs, hq⟩) l' h
        · intro _
          exact ⟨v ++ vs, rfl⟩

theorem parseLinesFrom_error (ls : List String) (n e : Nat)
    (h : parseLinesFrom n ls = Except.error e) :
    ∃ k, e = n + k ∧ ∃ l, ls[k]? = some l ∧ parse_container_line l = none ∧
      ∀ (m : Nat) (l' : String), m < k → ls[m]? = some l' →
        ∃ w, parse_container_line l' = some w := by
  induction ls generalizing n e with
  | nil => exact absurd h (by simp [parseLinesFrom])
  | cons l ls ih =>
    rw [parseLinesFrom] at h
    cases hp : parse_container_line l with
    | none =>
      rw [hp] at h
      injection h with h
      refine ⟨0, by omega, l, by simp, hp, ?_⟩
      intro m l' hm _
      exact absurd hm (Nat.not_lt_zero m)
    | some v =>
      rw [hp] at h
      cases hq : parseLinesFrom (n + 1) ls with
      | error e' =>
        rw [hq] at h
        injection h with h
        subst h
        obtain ⟨k, hk, l0, hl0, hfail, hbefore⟩ := ih (n + 1) e' hq
        refine ⟨k + 1, by omega, l0, by simpa using hl0, hfail, ?_⟩
        intro m l' hm hml
        cases m with
        | zero =>
          simp only [List.getElem?_cons_zero, Option.some.injEq] at hml
          exact ⟨v, hml ▸ hp⟩
        | succ m' =>
          exact hbefore m' l' (by omega) (by simpa using hml)
      | ok vs =>
        rw [hq] at h
        exact absurd h (by simp)

theorem parse_header_none_of_head {c : Char} (rest : List Char) (hc : c ≠ '\x7b') :
    parse_header (c :: rest) = none := by
  unfold parse_header
  split
  · next r1 heq =>
    injection heq with h1 _
    exact absurd h1 hc
  · rfl

theorem parse_container_line_whitespace (s : String)
    (h : ∀ c ∈ s.data, c.isWhitespace = true) : parse_container_line s = none := by
  unfold parse_container_line
  cases hs : s.data with
  | nil => rfl
  | cons c cs =>
    have hc : c.isWhitespace = true := h c (hs ▸ List.mem_cons_self c cs)
    have hne : c ≠ '\x7b' := by
      intro hcontra
      subst hcontra
      exact absurd hc (by decide)
    rw [parse_header_none_of_head cs hne]

/-! ### Claims: the grammar-failure contract of `parse_file` -/

/-- C3: `parse_file` succeeds exactly when every physical line (obtained after
stripping a leading BOM and dropping only the trailing empty piece of a final
terminator) matches the container-line grammar; when it fails it returns an
error (never a partial document, the return type being a sum) carrying the
0-based number of the first failing line; and any empty or whitespace-only
string fails the grammar, so an embedded empty line is such a failure. -/
theorem C3_parse_abort (i : String) :
    ((∃ f, parse_file i = Except.ok f) ↔
      ∀ l ∈ rustLines (split_bom i), ∃ w, parse_container_line l = some w) ∧
    (∀ n : Nat, parse_file i = Except.error n →
      ∃ l, (rustLines (split_bom i))[n]? = some l ∧ parse_container_line l = none ∧
        ∀ (m : Nat) (l' : String), m < n → (rustLines (split_bom i))[m]? = some l' →
          ∃ w, parse_container_line l' = some w) ∧
    (∀ s : String, (∀ c ∈ s.data, c.isWhitespace = true) → parse_container_line s = none) := by
  refine ⟨?_, ?_, parse_container_line_whitespace⟩
  · rw [← parseLinesFrom_ok_iff (rustLines (split_bom i)) 0]
    unfold parse_file
    cases hq : parseLinesFrom 0 (rustLines (split_bom i)) with
    | error e =>
      constructor
      · intro ⟨f, hf⟩
        exact absurd hf (by simp)
      · intro ⟨v, hv⟩
        exact absurd hv (by simp)
    | ok v =>
      constructor
      · intro _
        exact ⟨v, rfl⟩
      · intro _
        exact ⟨{ fps := 25, v := v }, rfl⟩
  · intro n hn
    unfold parse_file at hn
    cases hq : parseLinesFrom 0 (rustLines (split_bom i)) with
    | error e =>
      rw [hq] at hn
      injection hn with hn
      subst hn
      obtain ⟨k, hk, l, hl, hfail, hbefore⟩ :=
        parseLinesFrom_error (rustLines (split_bom i)) 0 e hq
      have : e = k := by omega
      subst this
      exact ⟨l, hl, hfail, hbefore⟩
    | ok v =>
      rw [hq] at hn
      exact absurd hn (by simp)

/-- C3 witness: on the concrete input whose second physical line is empty,
parsing reports the error at 0-based line number 1, that line is the empty
string, and the lines before it all parse. -/
theorem C3_parse_abort_witness :
    parse_file "\x7b0\x7d\x7b25\x7dok\n\nmore" = Except.error 1 ∧
    (∃ l, (rustLines (split_bom "\x7b0\x7d\x7b25\x7dok\n\nmore"))[1]? = some l ∧
      parse_container_line l = none ∧
      ∀ (m : Nat) (l' : String), m < 1 →
        (rustLines (split_bom "\x7b0\x7d\x7b25\x7dok\n\nmore"))[m]? = some l' →
          ∃ w, parse_container_line l' = some w) ∧
    parse_container_line " " = none :=
  ⟨rfl, (C3_parse_abort "\x7b0\x7d\x7b25\x7dok\n\nmore").2.1 1 rfl,
    (C3_parse_abort "\x7b0\x7d\x7b25\x7dok\n\nmore").2.2 " " (by decide)⟩

/-! ### Lemmas: the shape of `construct_mdvd_lines` -/

theorem construct_mdvd_lines_getElem (sf ef : Int) (segs : List (List String × String))
    (i : Nat) (seg : List String × String) (h : segs[i]? = some seg) :
    (construct_mdvd_lines sf ef segs)[i]? = some
      { start_frame := sf, end_frame := ef, text := seg.2,
        formatting :=
          ((segs.map (fun sg => sg.1.filter is_container_line_formatting)).flatten
            ++ seg.1.filter (fun t => ! is_container_line_formatting t)).map
            lowercase_first_char } := by
  have hff : mdvdFormattingFrom = lowercase_first_char := rfl
  unfold construct_mdvd_lines
  rw [List.getElem?_map, h]
  simp only [Option.map_some', Option.some.injEq, MdvdLine.mk.injEq]
  refine ⟨trivial, trivial, ?_, trivial⟩
  rw [hff, List.map_append, List.map_flatten, List.map_map]
  rfl

/-! ### Lemmas: the shape of one rendered container line -/

/-- `renderGroup`, with the member loop fused into one map over the group. -/
theorem renderGroup_eq (k : Int × Int) (ms : List MdvdLine) :
    renderGroup k ms =
      "\x7b" ++ intToDecimal k.1 ++ "\x7d" ++ "\x7b" ++ intToDecimal k.2 ++ "\x7d" ++
        concatAll ((commonOfGroup ms.length (ms.map fun l => setOfList l.formatting)).map
          (fun t => renderTagBlock t true)) ++
        joinSep "|" (ms.map fun m =>
          renderMember
            (diffS (setOfList m.formatting)
              (commonOfGroup ms.length (ms.map fun l => setOfList l.formatting)))
            m.text) := by
  show ("\x7b" ++ intToDecimal k.1 ++ "\x7d" ++ "\x7b" ++ intToDecimal k.2 ++ "\x7d" ++
      concatAll ((commonOfGroup ms.length (ms.map fun l => setOfList l.formatting)).map
        (fun t => renderTagBlock t true)) ++
      joinSep "|" ((((ms.map fun l => setOfList l.formatting).map
          (fun s => diffS s (commonOfGroup ms.length (ms.map fun l => setOfList l.formatting)))).zip
            (ms.map fun l => l.text)).map (fun p => renderMember p.1 p.2))) = _
  rw [List.map_map, List.zip_map', List.map_map]
  rfl

/-! ### Lemmas: characters of rendered output -/

theorem char_ne_of_toNat_ne {c d : Char} (h : c.toNat ≠ d.toNat) : c ≠ d :=
  fun he => h (he ▸ rfl)

theorem charToLower_toNat_ne_ten {c : Char} (h : c.toNat ≠ 10) :
    (charToLower c).toNat ≠ 10 := by
  unfold charToLower
  split
  · next hr => rw [char_toNat_ofNat (by omega)]; omega
  · exact h

theorem charToUpper_toNat_ne_ten {c : Char} (h : c.toNat ≠ 10) :
    (charToUpper c).toNat ≠ 10 := by
  unfold charToUpper
  split
  · next hr => rw [char_toNat_ofNat (by omega)]; omega
  · exact h

/-- A string none of whose characters is the newline character. -/
def NoNlStr (s : String) : Prop := ∀ c ∈ s.data, c.toNat ≠ 10

/-- A line whose text and tags are newline-free (true of everything the
parser produces, since physical lines are split on newlines). -/
def NoNlLine (m : MdvdLine) : Prop :=
  NoNlStr m.text ∧ ∀ t ∈ m.formatting, NoNlStr t

instance : DecidablePred NoNlStr := fun s => by unfold NoNlStr; infer_instance

instance : DecidablePred NoNlLine := fun m => by unfold NoNlLine; infer_instance

theorem noNlStr_append {a b : String} (ha : NoNlStr a) (hb : NoNlStr b) :
    NoNlStr (a ++ b) := by
  intro c hc
  rw [String.data_append] at hc
  rcases List.mem_append.mp hc with h | h
  · exact ha c h
  · exact hb c h

theorem noNlStr_to_formatting_string {t : String} (h : NoNlStr t) (mult : Bool) :
    NoNlStr (to_formatting_string t mult) := by
  cases mult with
  | true =>
    show NoNlStr (uppercase_first_char t)
    unfold uppercase_first_char
    cases ht : t.data with
    | nil => intro c hc; exact absurd hc (by simp)
    | cons c0 cs =>
      intro c hc
      simp only [String.data] at hc
      rcases List.mem_cons.mp hc with h1 | h1
      · subst h1
        exact charToUpper_toNat_ne_ten (h c0 (ht ▸ List.mem_cons_self c0 cs))
      · exact h c (ht ▸ List.mem_cons_of_mem c0 h1)
  | false =>
    show NoNlStr (lowercase_first_char t)
    unfold lowercase_first_char
    cases ht : t.data with
    | nil => intro c hc; exact absurd hc (by simp)
    | cons c0 cs =>
      intro c hc
      simp only [String.data] at hc
      rcases List.mem_cons.mp hc with h1 | h1
      · subst h1
        exact charToLower_toNat_ne_ten (h c0 (ht ▸ List.mem_cons_self c0 cs))
      · exact h c (ht ▸ List.mem_cons_of_mem c0 h1)

theorem noNlStr_renderTagBlock {t : String} (h : NoNlStr t) (mult : Bool) :
    NoNlStr (renderTagBlock t mult) := by
  unfold renderTagBlock
  refine noNlStr_append (noNlStr_append ?_ (noNlStr_to_formatting_string h mult)) ?_
  · intro c hc; simp at hc; subst hc; decide
  · intro c hc; simp at hc; subst hc; decide

theorem noNlStr_natDigits (fuel n : Nat) (acc : List Char)
    (hacc : ∀ c ∈ acc, c.toNat ≠ 10) : ∀ c ∈ natToDigitsF fuel n acc, c.toNat ≠ 10 := by
  induction fuel generalizing n acc with
  | zero => exact hacc
  | succ f ih =>
    unfold natToDigitsF
    split
    · exact hacc
    · refine ih (n / 10) _ ?_
      intro c hc
      rcases List.mem_cons.mp hc with h | h
      · subst h
        rw [char_toNat_ofNat (by omega)]
        omega
      · exact hacc c h

theorem noNlStr_intToDecimal (i : Int) : NoNlStr (intToDecimal i) := by
  unfold intToDecimal natToDigits
  split
  · intro c hc
    simp only [String.data] at hc
    rcases List.mem_cons.mp hc with h | h
    · subst h; decide
    · split at h
      · simp at h
        subst h
        decide
      · exact noNlStr_natDigits i.natAbs i.natAbs [] (by simp) c h
  · intro c hc
    simp only [String.data] at hc
    split at hc
    · simp at hc
      subst hc
      decide
    · exact noNlStr_natDigits i.natAbs i.natAbs [] (by simp) c hc

theorem noNlStr_concatAll {ss : List String} (h : ∀ s ∈ ss, NoNlStr s) :
    NoNlStr (concatAll ss) := by
  induction ss with
  | nil => intro c hc; exact absurd hc (by simp [concatAll])
  | cons s ss ih =>
    exact noNlStr_append (h s (List.mem_cons_self s ss))
      (ih (fun s' hs' => h s' (List.mem_cons_of_mem s hs')))

theorem noNlStr_joinSep {sep : String} (hsep : NoNlStr sep) {ss : List String}
    (h : ∀ s ∈ ss, NoNlStr s) : NoNlStr (joinSep sep ss) := by
  induction ss with
  | nil => intro c hc; exact absurd hc (by simp [joinSep])
  | cons s ss ih =>
    cases ss with
    | nil => exact h s (by simp)
    | cons s2 ss2 =>
      show NoNlStr (s ++ sep ++ joinSep sep (s2 :: ss2))
      exact noNlStr_append (noNlStr_append (h s (by simp)) hsep)
        (ih (fun s' hs' => h s' (List.mem_cons_of_mem s hs')))

/-- Every tag appearing in a run's common set comes from some member. -/
theorem commonOfGroup_subset (glen : Nat) (ms : List MdvdLine) (t : String)
    (h : t ∈ commonOfGroup glen (ms.map fun l => setOfList l.formatting)) :
    ∃ m ∈ ms, t ∈ m.formatting := by
  unfold commonOfGroup at h
  split at h
  · exact absurd h (by simp)
  · cases ms with
    | nil => exact absurd h (by simp [commonFold])
    | cons m0 rest =>
      rw [List.map_cons, commonFold_cons, Option.getD_some, mem_foldl_interS] at h
      exact ⟨m0, List.mem_cons_self m0 rest, (mem_setOfList t m0.formatting).mp h.1⟩

theorem noNlStr_renderGroup (k : Int × Int) (ms : List MdvdLine)
    (h : ∀ m ∈ ms, NoNlLine m) : NoNlStr (renderGroup k ms) := by
  rw [renderGroup_eq]
  have hbrace : NoNlStr "\x7b" := by intro c hc; simp at hc; subst hc; decide
  have hbrace2 : NoNlStr "\x7d" := by intro c hc; simp at hc; subst hc; decide
  have hcommon : NoNlStr (concatAll
      ((commonOfGroup ms.length (ms.map fun l => setOfList l.formatting)).map
        (fun t => renderTagBlock t true))) := by
    refine noNlStr_concatAll ?_
    intro s hs
    obtain ⟨t, ht, hts⟩ := List.mem_map.mp hs
    obtain ⟨m, hm, htm⟩ := commonOfGroup_subset ms.length ms t ht
    exact hts ▸ noNlStr_renderTagBlock ((h m hm).2 t htm) true
  have hmembers : NoNlStr (joinSep "|" (ms.map fun m =>
      renderMember
        (diffS (setOfList m.formatting)
          (commonOfGroup ms.length (ms.map fun l => setOfList l.formatting)))
        m.text)) := by
    refine noNlStr_joinSep (by intro c hc; simp at hc; subst hc; decide) ?_
    intro s hs
    obtain ⟨m, hm, hms⟩ := List.mem_map.mp hs
    rw [← hms]
    unfold renderMember
    refine noNlStr_append ?_ (h m hm).1
    refine noNlStr_concatAll ?_
    intro b hb
    obtain ⟨t, ht, htb⟩ := List.mem_map.mp hb
    have htm : t ∈ m.formatting := by
      have h1 := (mem_diffS t _ _).mp ht
      exact (mem_setOfList t m.formatting).mp h1.1
    exact htb ▸ noNlStr_renderTagBlock ((h m hm).2 t htm) false
  exact noNlStr_append (noNlStr_append (noNlStr_append (noNlStr_append (noNlStr_append
    (noNlStr_append (noNlStr_append hbrace (noNlStr_intToDecimal k.1)) hbrace2) hbrace)
    (noNlStr_intToDecimal k.2)) hbrace2) hcommon) hmembers

/-! ### Lemmas: splitting the joined output back into lines -/

theorem splitNl_no_nl {a : List Char} (h : ∀ c ∈ a, c.toNat ≠ 10) : splitNl a = [a] := by
  induction a with
  | nil => rfl
  | cons c cs ih =>
    have hcnl : ¬ c = '\n' := fun he => h c (List.mem_cons_self c cs) (by rw [he]; decide)
    show (if c = '\n' then [] :: splitNl cs
      else
        match splitNl cs with
        | [] => [[c]]
        | l :: ls => (c :: l) :: ls) = [c :: cs]
    rw [if_neg hcnl, ih (fun c' hc' => h c' (List.mem_cons_of_mem c hc'))]

theorem splitNl_append_nl {a : List Char} (b : List Char) (h : ∀ c ∈ a, c.toNat ≠ 10) :
    splitNl (a ++ '\n' :: b) = a :: splitNl b := by
  induction a with
  | nil =>
    show splitNl ('\n' :: b) = [] :: splitNl b
    show (if ('\n' : Char) = '\n' then [] :: splitNl b
      else
        match splitNl b with
        | [] => [['\n']]
        | l :: ls => ('\n' :: l) :: ls) = [] :: splitNl b
    rw [if_pos rfl]
  | cons c cs ih =>
    have hcnl : ¬ c = '\n' := fun he => h c (List.mem_cons_self c cs) (by rw [he]; decide)
    show (if c = '\n' then [] :: splitNl (cs ++ '\n' :: b)
      else
        match splitNl (cs ++ '\n' :: b) with
        | [] => [[c]]
        | l :: ls => (c :: l) :: ls) = (c :: cs) :: splitNl b
    rw [if_neg hcnl, ih (fun c' hc' => h c' (List.mem_cons_of_mem c hc'))]

theorem splitNl_joinSep (parts : List String) (hne : parts ≠ [])
    (h : ∀ p ∈ parts, NoNlStr p) :
    splitNl (joinSep "\n" parts).data = parts.map String.data := by
  induction parts with
  | nil => exact absurd rfl hne
  | cons p ps ih =>
    cases ps with
    | nil =>
      show splitNl p.data = [p.data]
      exact splitNl_no_nl (h p (List.mem_cons_self p []))
    | cons p2 ps2 =>
      show splitNl (p ++ "\n" ++ joinSep "\n" (p2 :: ps2)).data = _
      rw [String.data_append, String.data_append]
      rw [show ("\n" : String).data = ['\n'] from rfl, List.append_assoc,
        List.singleton_append]
      rw [splitNl_append_nl _ (h p (List.mem_cons_self p _))]
      rw [ih (by simp) (fun p' hp' => h p' (List.mem_cons_of_mem p hp'))]
      rfl

theorem groupRuns_ne_nil {v : List MdvdLine} (h : v ≠ []) : groupRuns v ≠ [] := by
  cases v with
  | nil => exact absurd rfl h
  | cons y ys =>
    obtain ⟨grp, rest, hh⟩ := groupRuns_head_key y ys
    rw [hh]
    simp

theorem mem_of_mem_groupRuns {v : List MdvdLine} {g : (Int × Int) × List MdvdLine}
    {m : MdvdLine} (hg : g ∈ groupRuns v) (hm : m ∈ g.2) : m ∈ v := by
  rw [← groupRuns_flatten v]
  rw [List.mem_flatten]
  exact ⟨g.2, List.mem_map_of_mem Prod.snd hg, hm⟩

/-! ### Claims: parse-time tag classification -/

/-- C6: on every physical line the parser accepts, each tag block whose
content starts with an uppercase character is group-scoped — it lands in the
formatting list of every sub-line built from the line, in encounter order
across segments — while every other tag block stays with its own segment; a
sub-line's formatting list is exactly the group-scoped tags (in encounter
order) followed by its own segment's line-scoped tags (in encounter order),
every tag stored with its first character lowercased. -/
theorem C6_tag_scoping (s : String) (lines : List MdvdLine)
    (h : parse_container_line s = some lines) :
    ∃ sf ef rest,
      parse_header s.data = some (sf, ef, rest) ∧
      (parseSegments rest).2 = [] ∧
      lines.length = (parseSegments rest).1.length ∧
      ∀ (i : Nat) (seg : List String × String), (parseSegments rest).1[i]? = some seg →
        lines[i]? = some
          { start_frame := sf, end_frame := ef, text := seg.2,
            formatting :=
              (((parseSegments rest).1.map
                  (fun sg => sg.1.filter is_container_line_formatting)).flatten
                ++ seg.1.filter (fun t => ! is_container_line_formatting t)).map
                lowercase_first_char } := by
  cases hh : parse_header s.data with
  | none =>
    unfold parse_container_line at h
    rw [hh] at h
    exact absurd h (by simp)
  | some p =>
    obtain ⟨sf, ef, rest⟩ := p
    cases hs : parseSegments rest with
    | mk segs r2 =>
      have hval : parse_container_line s =
          (match (segs, r2) with
           | (segs, []) => some (construct_mdvd_lines sf ef segs)
           | _ => none) := by
        unfold parse_container_line
        rw [hh]
        show (match parseSegments rest with
              | (segs, []) => some (construct_mdvd_lines sf ef segs)
              | _ => none) = _
        rw [hs]
      cases r2 with
      | cons c r2' =>
        rw [h] at hval
        exact absurd hval (by simp)
      | nil =>
        rw [h] at hval
        simp only [Option.some.injEq] at hval
        subst hval
        refine ⟨sf, ef, rest, rfl, ?_, ?_, ?_⟩
        · rw [hs]
        · rw [hs]
          unfold construct_mdvd_lines
          simp
        · intro i seg hseg
          rw [hs] at hseg ⊢
          exact construct_mdvd_lines_getElem sf ef segs i seg hseg

/-- C6 witness: the classification theorem applied to the concrete accepted
line `\x7b10\x7d\x7b20\x7d\x7bY:i\x7da|\x7by:b\x7db`, whose `Y:i` block is
group-scoped (it reaches both sub-lines, lowercased) while `y:b` stays with
the second segment. -/
theorem C6_tag_scoping_witness :
    ∃ sf ef rest,
      parse_header (String.data "\x7b10\x7d\x7b20\x7d\x7bY:i\x7da|\x7by:b\x7db") =
        some (sf, ef, rest) ∧
      (parseSegments rest).2 = [] ∧
      ([{ start_frame := 10, end_frame := 20, formatting := ["y:i"], text := "a" },
        { start_frame := 10, end_frame := 20, formatting := ["y:i", "y:b"], text := "b" }] :
          List MdvdLine).length = (parseSegments rest).1.length ∧
      ∀ (i : Nat) (seg : List String × String), (parseSegments rest).1[i]? = some seg →
        ([{ start_frame := 10, end_frame := 20, formatting := ["y:i"], text := "a" },
          { start_frame := 10, end_frame := 20, formatting := ["y:i", "y:b"], text := "b" }] :
            List MdvdLine)[i]? = some
          { start_frame := sf, end_frame := ef, text := seg.2,
            formatting :=
              (((parseSegments rest).1.map
                  (fun sg => sg.1.filter is_container_line_formatting)).flatten
                ++ seg.1.filter (fun t => ! is_container_line_formatting t)).map
                lowercase_first_char } :=
  C6_tag_scoping "\x7b10\x7d\x7b20\x7d\x7bY:i\x7da|\x7by:b\x7db"
    [{ start_frame := 10, end_frame := 20, formatting := ["y:i"], text := "a" },
     { start_frame := 10, end_frame := 20, formatting := ["y:i", "y:b"], text := "b" }]
    (by rfl)

/-! ### Claims: the canonicalization engine -/

/-- C7: a run of size one has an empty common-tag set, so its sole member's
entire tag set is emitted individually, rendered line-scoped (first character
lowercased) — never group-scoped, even though all its tags are trivially
common to the group of one; and concretely the input
`\x7b0\x7d\x7b25\x7d\x7bY:i\x7d\n` reserializes to
`\x7b0\x7d\x7b25\x7d\x7by:i\x7d`. -/
theorem C7_singleton_run (k : Int × Int) (m : MdvdLine) :
    commonOfGroup [m].length [setOfList m.formatting] = [] ∧
    renderGroup k [m] =
      "\x7b" ++ intToDecimal k.1 ++ "\x7d" ++ "\x7b" ++ intToDecimal k.2 ++ "\x7d" ++
        renderMember (setOfList m.formatting) m.text ∧
    (parse_file "\x7b0\x7d\x7b25\x7d\x7bY:i\x7d\n").map to_data =
      Except.ok "\x7b0\x7d\x7b25\x7d\x7by:i\x7d" := by
  refine ⟨rfl, ?_, by rfl⟩
  have hd : diffS (setOfList m.formatting) [] = setOfList m.formatting := diffS_nil _
  show ("\x7b" ++ intToDecimal k.1 ++ "\x7d" ++ "\x7b" ++ intToDecimal k.2 ++ "\x7d" ++
      concatAll [] ++
      joinSep "|" [renderMember (diffS (setOfList m.formatting) []) m.text]) = _
  rw [hd]
  apply string_data_ext
  simp [concatAll, joinSep, String.data_append]

/-- C2: for a maximal run of more than one sub-line sharing a key, the
rendered container line hoists exactly the tags common to all members (a tag
is in the common set iff it is in every member's tag list — duplicates
collapse through `setOfList`), rendered group-scoped, and each member then
carries exactly its own set minus the common set, rendered line-scoped before
its text, with the members pipe-separated in run order. -/
theorem C2_merge_common (f : MdvdFile) (k : Int × Int) (ms : List MdvdLine)
    (hmem : (k, ms) ∈ groupRuns (sortLines f.v)) (hlen : 1 < ms.length) :
    ∃ common, commonOfGroup ms.length (ms.map fun l => setOfList l.formatting) = common ∧
      (∀ t, t ∈ common ↔ ∀ m ∈ ms, t ∈ m.formatting) ∧
      (∀ m ∈ ms, ∀ t, t ∈ diffS (setOfList m.formatting) common ↔
          (t ∈ m.formatting ∧ t ∉ common)) ∧
      renderGroup k ms =
        "\x7b" ++ intToDecimal k.1 ++ "\x7d" ++ "\x7b" ++ intToDecimal k.2 ++ "\x7d" ++
          concatAll (common.map (fun t => renderTagBlock t true)) ++
          joinSep "|" (ms.map fun m =>
            renderMember (diffS (setOfList m.formatting) common) m.text) := by
  refine ⟨_, rfl, ?_, ?_, renderGroup_eq k ms⟩
  · intro t
    cases ms with
    | nil => exact absurd hlen (by simp)
    | cons m0 rest =>
      unfold commonOfGroup
      rw [if_neg (show ¬ (m0 :: rest).length = 1 by
        simp only [List.length_cons] at hlen ⊢
        omega)]
      rw [List.map_cons, commonFold_cons, Option.getD_some, mem_foldl_interS, mem_setOfList]
      constructor
      · rintro ⟨h1, h2⟩ m hm
        rcases List.mem_cons.mp hm with h | h
        · exact h ▸ h1
        · have := h2 (setOfList m.formatting) (List.mem_map_of_mem _ h)
          exact (mem_setOfList t m.formatting).mp this
      · intro hall
        refine ⟨hall m0 (List.mem_cons_self m0 rest), ?_⟩
        intro s hs
        obtain ⟨m, hm, hsm⟩ := List.mem_map.mp hs
        rw [← hsm, mem_setOfList]
        exact hall m (List.mem_cons_of_mem m0 hm)
  · intro m _ t
    rw [mem_diffS, mem_setOfList]

/-- C2 witness: two sub-lines sharing the key `(0, 25)` with tag lists
`[y:i, y:b]` and `[y:i]`; the hoisted common set is exactly `y:i` and the
individual sets are `y:b` and nothing. -/
theorem C2_merge_common_witness :
    ∃ common,
      commonOfGroup
        ([{ start_frame := 0, end_frame := 25, formatting := ["y:i", "y:b"], text := "T1" },
          { start_frame := 0, end_frame := 25, formatting := ["y:i"], text := "T2" }] :
            List MdvdLine).length
        (([{ start_frame := 0, end_frame := 25, formatting := ["y:i", "y:b"], text := "T1" },
           { start_frame := 0, end_frame := 25, formatting := ["y:i"], text := "T2" }] :
             List MdvdLine).map fun l => setOfList l.formatting) = common ∧
      (∀ t, t ∈ common ↔
        ∀ m ∈
          ([{ start_frame := 0, end_frame := 25, formatting := ["y:i", "y:b"], text := "T1" },
            { start_frame := 0, end_frame := 25, formatting := ["y:i"], text := "T2" }] :
              List MdvdLine), t ∈ m.formatting) ∧
      (∀ m ∈
          ([{ start_frame := 0, end_frame := 25, formatting := ["y:i", "y:b"], text := "T1" },
            { start_frame := 0, end_frame := 25, formatting := ["y:i"], text := "T2" }] :
              List MdvdLine),
        ∀ t, t ∈ diffS (setOfList m.formatting) common ↔
          (t ∈ m.formatting ∧ t ∉ common)) ∧
      renderGroup (0, 25)
          [{ start_frame := 0, end_frame := 25, formatting := ["y:i", "y:b"], text := "T1" },
           { start_frame := 0, end_frame := 25, formatting := ["y:i"], text := "T2" }] =
        "\x7b" ++ intToDecimal 0 ++ "\x7d" ++ "\x7b" ++ intToDecimal 25 ++ "\x7d" ++
          concatAll (common.map (fun t => renderTagBlock t true)) ++
          joinSep "|"
            (([{ start_frame := 0, end_frame := 25, formatting := ["y:i", "y:b"], text := "T1" },
               { start_frame := 0, end_frame := 25, formatting := ["y:i"], text := "T2" }] :
                 List MdvdLine).map fun m =>
              renderMember (diffS (setOfList m.formatting) common) m.text) :=
  C2_merge_common
    { fps := 25,
      v := [{ start_frame := 0, end_frame := 25, formatting := ["y:i", "y:b"], text := "T1" },
            { start_frame := 0, end_frame := 25, formatting := ["y:i"], text := "T2" }] }
    (0, 25)
    [{ start_frame := 0, end_frame := 25, formatting := ["y:i", "y:b"], text := "T1" },
     { start_frame := 0, end_frame := 25, formatting := ["y:i"], text := "T2" }]
    (by decide) (by decide)

/-- C8: `to_data` renders the sub-lines sorted stably by `(start_frame,
end_frame)` — the sorted copy is a permutation of the document's lines that
keeps lines of equal key in their original relative order; the container
lines are the maximal runs of the sorted copy, with strictly increasing keys
(so runs come out in ascending order and lines with different keys are never
merged, while every member of a run carries the run's key); and the output is
the run renders joined by exactly one newline between consecutive lines with
no trailing terminator (splitting the output on the newline character
recovers exactly the rendered runs). -/
theorem C8_output_structure (f : MdvdFile) (hclean : ∀ m ∈ f.v, NoNlLine m) :
    List.Perm (sortLines f.v) f.v ∧
    (∀ k : Int × Int, (sortLines f.v).filter (fun m => decide (lineKey m = k)) =
        f.v.filter (fun m => decide (lineKey m = k))) ∧
    List.Chain' pairLt ((groupRuns (sortLines f.v)).map Prod.fst) ∧
    (∀ g ∈ groupRuns (sortLines f.v), g.2 ≠ [] ∧ ∀ m ∈ g.2, lineKey m = g.1) ∧
    ((groupRuns (sortLines f.v)).map Prod.snd).flatten = sortLines f.v ∧
    (f.v ≠ [] →
      splitNl (to_data f).data =
        (groupRuns (sortLines f.v)).map fun g => (renderGroup g.1 g.2).data) := by
  refine ⟨sortLines_perm f.v, fun k => sortLines_filter_stable f.v k,
    groupRuns_keys_strict _ (sortLines_sorted f.v), groupRuns_mem_key _,
    groupRuns_flatten _, ?_⟩
  intro hne
  have hsne : sortLines f.v ≠ [] := by
    intro hc
    have := (sortLines_perm f.v).length_eq
    rw [hc] at this
    exact hne (List.length_eq_zero.mp this.symm)
  have hrne : (groupRuns (sortLines f.v)).map (fun g => renderGroup g.1 g.2) ≠ [] := by
    intro hc
    exact groupRuns_ne_nil hsne (List.map_eq_nil_iff.mp hc)
  unfold to_data
  rw [splitNl_joinSep _ hrne ?hc, List.map_map]
  case _ => rfl
  case hc =>
    intro p hp
    obtain ⟨g, hg, hgp⟩ := List.mem_map.mp hp
    refine hgp ▸ noNlStr_renderGroup g.1 g.2 ?_
    intro m hm
    exact hclean m ((sortLines_perm f.v).mem_iff.mp (mem_of_mem_groupRuns hg hm))

/-- C8 witness: the structure theorem applied to a concrete two-line document
given in unsorted order with distinct keys. -/
theorem C8_output_structure_witness :
    List.Perm
      (sortLines
        [{ start_frame := 0, end_frame := 26, formatting := ["y:i"], text := "B" },
         { start_frame := 0, end_frame := 25, formatting := [], text := "A" }])
      [{ start_frame := 0, end_frame := 26, formatting := ["y:i"], text := "B" },
       { start_frame := 0, end_frame := 25, formatting := [], text := "A" }] ∧
    (∀ k : Int × Int,
      (sortLines
        [{ start_frame := 0, end_frame := 26, formatting := ["y:i"], text := "B" },
         { start_frame := 0, end_frame := 25, formatting := [], text := "A" }]).filter
          (fun m => decide (lineKey m = k)) =
        ([{ start_frame := 0, end_frame := 26, formatting := ["y:i"], text := "B" },
          { start_frame := 0, end_frame := 25, formatting := [], text := "A" }] :
            List MdvdLine).filter (fun m => decide (lineKey m = k))) ∧
    List.Chain' pairLt
      ((groupRuns (sortLines
        [{ start_frame := 0, end_frame := 26, formatting := ["y:i"], text := "B" },
         { start_frame := 0, end_frame := 25, formatting := [], text := "A" }])).map
          Prod.fst) ∧
    (∀ g ∈ groupRuns (sortLines
        [{ start_frame := 0, end_frame := 26, formatting := ["y:i"], text := "B" },
         { start_frame := 0, end_frame := 25, formatting := [], text := "A" }]),
      g.2 ≠ [] ∧ ∀ m ∈ g.2, lineKey m = g.1) ∧
    ((groupRuns (sortLines
        [{ start_frame := 0, end_frame := 26, formatting := ["y:i"], text := "B" },
         { start_frame := 0, end_frame := 25, formatting := [], text := "A" }])).map
          Prod.snd).flatten =
      sortLines
        [{ start_frame := 0, end_frame := 26, formatting := ["y:i"], text := "B" },
         { start_frame := 0, end_frame := 25, formatting := [], text := "A" }] ∧
    (([{ start_frame := 0, end_frame := 26, formatting := ["y:i"], text := "B" },
       { start_frame := 0, end_frame := 25, formatting := [], text := "A" }] :
         List MdvdLine) ≠ [] →
      splitNl (to_data
        { fps := 25,
          v := [{ start_frame := 0, end_frame := 26, formatting := ["y:i"], text := "B" },
                { start_frame := 0, end_frame := 25, formatting := [], text := "A" }] }).data =
        (groupRuns (sortLines
          [{ start_frame := 0, end_frame := 26, formatting := ["y:i"], text := "B" },
           { start_frame := 0, end_frame := 25, formatting := [], text := "A" }])).map
          fun g => (renderGroup g.1 g.2).data) :=
  C8_output_structure
    { fps := 25,
      v := [{ start_frame := 0, end_frame := 26, formatting := ["y:i"], text := "B" },
            { start_frame := 0, end_frame := 25, formatting := [], text := "A" }] }
    (by decide)

/-! ### Lemmas: invariants of everything the parser produces -/

theorem mk_data (s : String) : String.mk s.data = s := by
  cases s
  rfl

/-- A string whose first character (if any) is not uppercase — the shape of
every tag stored by the parser, which normalizes by `From`. -/
def HeadNotUpper (t : String) : Prop :=
  match t.data with
  | [] => True
  | c :: _ => charIsUpper c = false

/-- Invariant of a stored tag: no closing brace and no newline among its
characters (it was read by `satisfy(c != '\x7d')` from within one physical
line), and a non-uppercase first character (it was normalized by `From`). -/
def TagInv (t : String) : Prop :=
  (∀ c ∈ t.data, c ≠ '\x7d' ∧ c.toNat ≠ 10) ∧ HeadNotUpper t

/-- Invariant of a stored text: no pipe and no newline among its characters
(it was read by `satisfy(c != '|')` from within one physical line). -/
def TextInv (x : String) : Prop := ∀ c ∈ x.data, c ≠ '|' ∧ c.toNat ≠ 10

/-- Invariant of every `MdvdLine` built by the parser. -/
def ParseInv (m : MdvdLine) : Prop :=
  0 ≤ m.start_frame ∧ 0 ≤ m.end_frame ∧ (∀ t ∈ m.formatting, TagInv t) ∧ TextInv m.text

theorem takeNonBrace_mem :
    ∀ cs : List Char, ∀ c ∈ (takeNonBrace cs).1, c ∈ cs ∧ c ≠ '\x7d'
  | [] => by simp [takeNonBrace]
  | c0 :: cs => by
    intro c hc
    unfold takeNonBrace at hc
    split at hc
    · exact absurd hc (by simp)
    · next hne =>
      rcases List.mem_cons.mp hc with h | h
      · subst h
        exact ⟨List.mem_cons_self c cs, hne⟩
      · obtain ⟨h1, h2⟩ := takeNonBrace_mem cs c h
        exact ⟨List.mem_cons_of_mem c0 h1, h2⟩

theorem takeNonBrace_suffix_mem :
    ∀ cs : List Char, ∀ c ∈ (takeNonBrace cs).2, c ∈ cs
  | [] => by simp [takeNonBrace]
  | c0 :: cs => by
    intro c hc
    unfold takeNonBrace at hc
    split at hc
    · exact hc
    · exact List.mem_cons_of_mem c0 (takeNonBrace_suffix_mem cs c hc)

theorem takeText_mem :
    ∀ cs : List Char, ∀ c ∈ (takeText cs).1, c ∈ cs ∧ c ≠ '|'
  | [] => by simp [takeText]
  | c0 :: cs => by
    intro c hc
    unfold takeText at hc
    split at hc
    · exact absurd hc (by simp)
    · next hne =>
      rcases List.mem_cons.mp hc with h | h
      · subst h
        exact ⟨List.mem_cons_self c cs, hne⟩
      · obtain ⟨h1, h2⟩ := takeText_mem cs c h
        exact ⟨List.mem_cons_of_mem c0 h1, h2⟩

theorem takeText_suffix_mem :
    ∀ cs : List Char, ∀ c ∈ (takeText cs).2, c ∈ cs
  | [] => by simp [takeText]
  | c0 :: cs => by
    intro c hc
    unfold takeText at hc
    split at hc
    · exact hc
    · exact List.mem_cons_of_mem c0 (takeText_suffix_mem cs c hc)

theorem parse_sub_info_mem {cs : List Char} {t : String} {rest : List Char}
    (h : parse_sub_info cs = some (t, rest)) :
    (∀ c ∈ t.data, c ∈ cs ∧ c ≠ '\x7d') ∧ (∀ c ∈ rest, c ∈ cs) := by
  unfold parse_sub_info at h
  split at h
  · next cs' =>
    split at h
    · next content rest2 hb =>
      injection h with h'
      have ht : String.mk content = t := congrArg Prod.fst h'
      have hr : rest2 = rest := congrArg Prod.snd h'
      constructor
      · intro c hc
        rw [← ht] at hc
        have hc' : c ∈ content := hc
        have hmem := takeNonBrace_mem cs' c (by rw [hb]; exact hc')
        exact ⟨List.mem_cons_of_mem _ hmem.1, hmem.2⟩
      · intro c hc
        rw [← hr] at hc
        have hmem := takeNonBrace_suffix_mem cs' c (by rw [hb]; exact List.mem_cons_of_mem _ hc)
        exact List.mem_cons_of_mem _ hmem
    · exact absurd h (by simp)
  · exact absurd h (by simp)

theorem parseManyInfos_mem (cs : List Char) :
    (∀ t ∈ (parseManyInfos cs).1, ∀ c ∈ t.data, c ∈ cs ∧ c ≠ '\x7d') ∧
    (∀ c ∈ (parseManyInfos cs).2, c ∈ cs) := by
  suffices hgen : ∀ n, ∀ cs : List Char, cs.length ≤ n →
      (∀ t ∈ (parseManyInfos cs).1, ∀ c ∈ t.data, c ∈ cs ∧ c ≠ '\x7d') ∧
      (∀ c ∈ (parseManyInfos cs).2, c ∈ cs) from hgen cs.length cs le_rfl
  intro n
  induction n using Nat.strong_induction_on with
  | _ n ih =>
    intro cs hn
    cases hp : parse_sub_info cs with
    | none =>
      have hred : parseManyInfos cs = ([], cs) := by rw [parseManyInfos_eq, hp]
      rw [hred]
      exact ⟨by simp, fun c hc => hc⟩
    | some p =>
      obtain ⟨t, rest⟩ := p
      have hred : parseManyInfos cs =
          (t :: (parseManyInfos rest).1, (parseManyInfos rest).2) := by
        rw [parseManyInfos_eq, hp]
      rw [hred]
      have hlen := parse_sub_info_length hp
      have hmem := parse_sub_info_mem hp
      obtain ⟨ih1, ih2⟩ := ih rest.length (lt_of_lt_of_le hlen hn) rest le_rfl
      constructor
      · intro t' ht' c hc
        rcases List.mem_cons.mp ht' with h | h
        · subst h
          exact hmem.1 c hc
        · obtain ⟨h1, h2⟩ := ih1 t' h c hc
          exact ⟨hmem.2 c h1, h2⟩
      · intro c hc
        exact hmem.2 c (ih2 c hc)

theorem parseSegments_mem (cs : List Char) :
    ∀ seg ∈ (parseSegments cs).1,
      (∀ t ∈ seg.1, ∀ c ∈ t.data, c ∈ cs ∧ c ≠ '\x7d') ∧
      (∀ c ∈ seg.2.data, c ∈ cs ∧ c ≠ '|') := by
  suffices hgen : ∀ n, ∀ cs : List Char, cs.length ≤ n →
      ∀ seg ∈ (parseSegments cs).1,
        (∀ t ∈ seg.1, ∀ c ∈ t.data, c ∈ cs ∧ c ≠ '\x7d') ∧
        (∀ c ∈ seg.2.data, c ∈ cs ∧ c ≠ '|') from hgen cs.length cs le_rfl
  intro n
  induction n using Nat.strong_induction_on with
  | _ n ih =>
    intro cs hn
    have hsl : parse_single_line cs =
        (((parseManyInfos cs).1, String.mk (takeText (parseManyInfos cs).2).1),
          (takeText (parseManyInfos cs).2).2) := rfl
    have hm := parseManyInfos_mem cs
    have hseg1 : (∀ t ∈ (parse_single_line cs).1.1, ∀ c ∈ t.data, c ∈ cs ∧ c ≠ '\x7d') ∧
        (∀ c ∈ (parse_single_line cs).1.2.data, c ∈ cs ∧ c ≠ '|') := by
      rw [hsl]
      refine ⟨hm.1, ?_⟩
      intro c hc
      have hc' : c ∈ (takeText (parseManyInfos cs).2).1 := hc
      have h1 := takeText_mem (parseManyInfos cs).2 c hc'
      exact ⟨hm.2 c h1.1, h1.2⟩
    cases hps : parse_single_line cs with
    | mk seg r =>
      rw [hps] at hseg1
      cases r with
      | nil =>
        have hred : parseSegments cs = ([seg], []) := by rw [parseSegments_eq, hps]
        rw [hred]
        intro seg' hseg'
        simp only [List.mem_singleton] at hseg'
        subst hseg'
        exact hseg1
      | cons c0 r' =>
        by_cases hc0 : c0 = '|'
        · subst hc0
          have hred : parseSegments cs =
              (seg :: (parseSegments r').1, (parseSegments r').2) := by
            rw [parseSegments_eq, hps]
            show (if '|' = '|' then (seg :: (parseSegments r').1, (parseSegments r').2)
              else ([seg], '|' :: r')) = _
            rw [if_pos rfl]
          rw [hred]
          have hlenr : r'.length < cs.length := by
            have := parse_single_line_suffix_le cs
            rw [hps] at this
            simp only [List.length_cons] at this
            omega
          have hsub : ∀ c ∈ r', c ∈ cs := by
            intro c hc
            have h1 : c ∈ ('|' :: r') := List.mem_cons_of_mem _ hc
            have h2 := takeText_suffix_mem (parseManyInfos cs).2 c
            have h3 : ('|' :: r') = (takeText (parseManyInfos cs).2).2 := by
              rw [hsl] at hps
              exact (congrArg Prod.snd hps).symm
            rw [h3] at h1
            exact (parseManyInfos_mem cs).2 c (h2 h1)
          intro seg' hseg'
          rcases List.mem_cons.mp hseg' with h | h
          · subst h
            exact hseg1
          · obtain ⟨hh1, hh2⟩ := ih r'.length (lt_of_lt_of_le hlenr hn) r' le_rfl seg' h
            exact ⟨fun t ht c hc => ⟨hsub c (hh1 t ht c hc).1, (hh1 t ht c hc).2⟩,
              fun c hc => ⟨hsub c (hh2 c hc).1, (hh2 c hc).2⟩⟩
        · have hred : parseSegments cs = ([seg], c0 :: r') := by
            rw [parseSegments_eq, hps]
            show (if c0 = '|' then (seg :: (parseSegments r').1, (parseSegments r').2)
              else ([seg], c0 :: r')) = _
            rw [if_neg hc0]
          rw [hred]
          intro seg' hseg'
          simp only [List.mem_singleton] at hseg'
          subst hseg'
          exact hseg1

theorem charToLower_ne_rbrace {c : Char} (h : c ≠ '\x7d') : charToLower c ≠ '\x7d' := by
  unfold charToLower
  split
  · next hc =>
    intro he
    have h1 : (Char.ofNat (c.toNat + 32)).toNat = c.toNat + 32 :=
      char_toNat_ofNat (by omega)
    rw [he] at h1
    have h2 : ('\x7d' : Char).toNat = 125 := rfl
    omega
  · exact h

/-- The normalization `From` (first char lowercased) preserves the character
conditions and establishes the non-uppercase head. -/
theorem tagInv_from {raw : String}
    (h : ∀ c ∈ raw.data, c ≠ '\x7d' ∧ c.toNat ≠ 10) :
    TagInv (mdvdFormattingFrom raw) := by
  unfold mdvdFormattingFrom lowercase_first_char
  cases hd : raw.data with
  | nil =>
    exact ⟨fun c hc => absurd hc (List.not_mem_nil c), trivial⟩
  | cons c0 cs =>
    constructor
    · intro c hc
      have hc' : c ∈ charToLower c0 :: cs := hc
      rcases List.mem_cons.mp hc' with h1 | h1
      · subst h1
        have h0 := h c0 (by rw [hd]; exact List.mem_cons_self _ _)
        exact ⟨charToLower_ne_rbrace h0.1, charToLower_toNat_ne_ten h0.2⟩
      · exact h c (by rw [hd]; exact List.mem_cons_of_mem _ h1)
    · show charIsUpper (charToLower c0) = false
      exact charIsUpper_charToLower c0

theorem takeDigits_suffix_mem :
    ∀ cs : List Char, ∀ c ∈ (takeDigits cs).2, c ∈ cs
  | [] => by simp [takeDigits]
  | c0 :: cs => by
    intro c hc
    unfold takeDigits at hc
    split at hc
    · exact List.mem_cons_of_mem c0 (takeDigits_suffix_mem cs c hc)
    · exact hc

theorem number_i64_nonneg {cs : List Char} {n : Int} {rest : List Char}
    (h : number_i64 cs = some (n, rest)) : 0 ≤ n := by
  unfold number_i64 at h
  split at h
  · exact absurd h (by simp)
  · rename_i ds rest' hne hd
    injection h with h'
    have h1 : ((digitsToNat ds : Nat) : Int) = n := congrArg Prod.fst h'
    rw [← h1]
    exact Int.natCast_nonneg _

theorem number_i64_rest_mem {cs : List Char} {n : Int} {rest : List Char}
    (h : number_i64 cs = some (n, rest)) : ∀ c ∈ rest, c ∈ cs := by
  unfold number_i64 at h
  split at h
  · exact absurd h (by simp)
  · rename_i ds rest' hne hd
    injection h with h'
    have h1 : rest' = rest := congrArg Prod.snd h'
    intro c hc
    rw [← h1] at hc
    have h2 : rest' = (takeDigits cs).2 := congrArg Prod.snd hd.symm
    rw [h2] at hc
    exact takeDigits_suffix_mem cs c hc

theorem parse_header_nonneg {cs : List Char} {sf ef : Int} {rest : List Char}
    (h : parse_header cs = some (sf, ef, rest)) : 0 ≤ sf ∧ 0 ≤ ef := by
  unfold parse_header at h
  split at h
  · rename_i r1
    split at h
    · rename_i sf' r2 h1
      split at h
      · rename_i ef' r3 h2
        injection h with h'
        have hsf : sf' = sf := congrArg Prod.fst h'
        have hef : ef' = ef := congrArg (fun p => p.2.1) h'
        rw [← hsf, ← hef]
        exact ⟨number_i64_nonneg h1, number_i64_nonneg h2⟩
      · exact absurd h (by simp)
    · exact absurd h (by simp)
  · exact absurd h (by simp)

theorem parse_header_rest_mem {cs : List Char} {sf ef : Int} {rest : List Char}
    (h : parse_header cs = some (sf, ef, rest)) : ∀ c ∈ rest, c ∈ cs := by
  unfold parse_header at h
  split at h
  · rename_i r1
    split at h
    · rename_i sf' r2 h1
      split at h
      · rename_i ef' r3 h2
        injection h with h'
        have hr : r3 = rest := congrArg (fun p => p.2.2) h'
        intro c hc
        rw [← hr] at hc
        have hc2 : c ∈ '\x7d' :: r3 := List.mem_cons_of_mem _ hc
        have hc3 := number_i64_rest_mem h2 c hc2
        have hc4 : c ∈ '\x7d' :: '\x7b' :: r2 :=
          List.mem_cons_of_mem _ (List.mem_cons_of_mem _ hc3)
        have hc5 := number_i64_rest_mem h1 c hc4
        exact List.mem_cons_of_mem _ hc5
      · exact absurd h (by simp)
    · exact absurd h (by simp)
  · exact absurd h (by simp)

theorem parse_container_line_inv {l : String} {lines : List MdvdLine}
    (h : parse_container_line l = some lines)
    (hnl : ∀ c ∈ l.data, c.toNat ≠ 10) :
    ∀ m ∈ lines, ParseInv m := by
  unfold parse_container_line at h
  split at h
  · exact absurd h (by simp)
  · rename_i sf ef rest hh
    split at h
    · rename_i segs hseg
      injection h with h'
      subst h'
      have hrest : ∀ c ∈ rest, c ∈ l.data := parse_header_rest_mem hh
      have hnn := parse_header_nonneg hh
      have hsm := parseSegments_mem rest
      rw [hseg] at hsm
      have hraw : ∀ p ∈ segs, ∀ raw ∈ p.1, ∀ c ∈ raw.data, c ≠ '\x7d' ∧ c.toNat ≠ 10 := by
        intro p hp raw hr c hc
        obtain ⟨h1, h2⟩ := (hsm p hp).1 raw hr c hc
        exact ⟨h2, hnl c (hrest c h1)⟩
      have htext : ∀ p ∈ segs, TextInv p.2 := by
        intro p hp c hc
        obtain ⟨h1, h2⟩ := (hsm p hp).2 c hc
        exact ⟨h2, hnl c (hrest c h1)⟩
      intro m hm
      simp only [construct_mdvd_lines, List.mem_map] at hm
      obtain ⟨p, hp, hpm⟩ := hm
      refine ⟨?_, ?_, ?_, ?_⟩
      · rw [← hpm]
        exact hnn.1
      · rw [← hpm]
        exact hnn.2
      · rw [← hpm]
        intro t ht
        rcases List.mem_append.mp ht with h1 | h1
        · simp only [List.mem_flatten, List.mem_map] at h1
          obtain ⟨sub, ⟨p', hp', hsub⟩, hts⟩ := h1
          rw [← hsub] at hts
          simp only [List.mem_map] at hts
          obtain ⟨raw, hrawmem, ht'⟩ := hts
          rw [← ht']
          exact tagInv_from (hraw p' hp' raw (List.mem_of_mem_filter hrawmem))
        · simp only [List.mem_map] at h1
          obtain ⟨raw, hrawmem, ht'⟩ := h1
          rw [← ht']
          exact tagInv_from (hraw p hp raw (List.mem_of_mem_filter hrawmem))
      · rw [← hpm]
        exact htext p hp
    · exact absurd h (by simp)

theorem splitNl_pieces_no_nl :
    ∀ a : List Char, ∀ p ∈ splitNl a, ∀ c ∈ p, c.toNat ≠ 10
  | [] => by
    intro p hp c hc
    have hp' : p = [] := by simpa [splitNl] using hp
    subst hp'
    exact absurd hc (List.not_mem_nil c)
  | c0 :: cs => by
    intro p hp c hc
    unfold splitNl at hp
    split at hp
    · rcases List.mem_cons.mp hp with h | h
      · subst h
        exact absurd hc (List.not_mem_nil c)
      · exact splitNl_pieces_no_nl cs p h c hc
    · next h0 =>
      cases hs : splitNl cs with
      | nil =>
        have hp' : p ∈ [[c0]] := by rw [hs] at hp; exact hp
        have hpe : p = [c0] := by simpa using hp'
        subst hpe
        have hce : c = c0 := by simpa using hc
        subst hce
        intro h10
        exact h0 (char_toNat_inj (h10.trans rfl))
      | cons l ls =>
        have hp' : p ∈ (c0 :: l) :: ls := by rw [hs] at hp; exact hp
        rcases List.mem_cons.mp hp' with h | h
        · subst h
          rcases List.mem_cons.mp hc with h1 | h1
          · subst h1
            intro h10
            exact h0 (char_toNat_inj (h10.trans rfl))
          · exact splitNl_pieces_no_nl cs l (by rw [hs]; exact List.mem_cons_self _ _) c h1
        · exact splitNl_pieces_no_nl cs p (by rw [hs]; exact List.mem_cons_of_mem _ h) c hc

theorem rustLines_no_nl (s : String) : ∀ l ∈ rustLines s, ∀ c ∈ l.data, c.toNat ≠ 10 := by
  intro l hl c hc
  unfold rustLines at hl
  rw [List.mem_map] at hl
  obtain ⟨p, hp, hlp⟩ := hl
  have hp' : p ∈ splitNl s.data := by
    unfold dropTrailingEmpty at hp
    split at hp
    · exact List.Sublist.mem hp (List.dropLast_sublist _)
    · exact hp
  rw [← hlp] at hc
  have hc' : c ∈ stripCR p := hc
  have hcp : c ∈ p := by
    unfold stripCR at hc'
    split at hc'
    · exact List.Sublist.mem hc' (List.dropLast_sublist _)
    · exact hc'
  exact splitNl_pieces_no_nl s.data p hp' c hcp

theorem parseLinesFrom_ok_mem :
    ∀ (ls : List String) (n : Nat) (v : List MdvdLine),
      parseLinesFrom n ls = Except.ok v →
      ∀ m ∈ v, ∃ l ∈ ls, ∃ lines, parse_container_line l = some lines ∧ m ∈ lines
  | [] => by
    intro n v h m hm
    injection h with h'
    rw [← h'] at hm
    exact absurd hm (List.not_mem_nil m)
  | l :: ls => by
    intro n v h m hm
    unfold parseLinesFrom at h
    split at h
    · exact absurd h (by simp)
    · rename_i lines hpl
      split at h
      · exact absurd h (by simp)
      · rename_i vs hrec
        injection h with h'
        rw [← h'] at hm
        rcases List.mem_append.mp hm with h1 | h1
        · exact ⟨l, List.mem_cons_self _ _, lines, hpl, h1⟩
        · obtain ⟨l', hl', lines', hp', hm'⟩ :=
            parseLinesFrom_ok_mem ls (n + 1) vs hrec m h1
          exact ⟨l', List.mem_cons_of_mem _ hl', lines', hp', hm'⟩

/-- Every sub-line of a successfully parsed document satisfies the parser
invariant: nonnegative frames, brace-free newline-free non-upper-headed tags,
pipe-free newline-free text. -/
theorem parse_file_inv {s : String} {f : MdvdFile}
    (h : parse_file s = Except.ok f) : ∀ m ∈ f.v, ParseInv m := by
  unfold parse_file at h
  split at h
  · exact absurd h (by simp)
  · rename_i v hv
    injection h with h'
    rw [← h']
    intro m hm
    have hm' : m ∈ v := hm
    obtain ⟨l, hl, lines, hpl, hml⟩ := parseLinesFrom_ok_mem _ 0 v hv m hm'
    exact parse_container_line_inv hpl (rustLines_no_nl _ l hl) m hml

/-! ### Lemmas: reparsing a rendered decimal number -/

theorem natToDigitsF_acc :
    ∀ (fuel n : Nat) (acc : List Char),
      natToDigitsF fuel n acc = natToDigitsF fuel n [] ++ acc
  | 0, _, _ => rfl
  | fuel + 1, n, acc => by
    unfold natToDigitsF
    split
    · simp
    · rw [natToDigitsF_acc fuel (n / 10) (Char.ofNat (n % 10 + 48) :: acc),
        natToDigitsF_acc fuel (n / 10) [Char.ofNat (n % 10 + 48)]]
      simp

theorem natToDigitsF_digits :
    ∀ (fuel n : Nat) (acc : List Char), (∀ c ∈ acc, isDigitChar c = true) →
      ∀ c ∈ natToDigitsF fuel n acc, isDigitChar c = true
  | 0, _, _ => fun h => h
  | fuel + 1, n, acc => by
    intro h c hc
    unfold natToDigitsF at hc
    split at hc
    · exact h c hc
    · refine natToDigitsF_digits fuel (n / 10) _ ?_ c hc
      intro d hd
      rcases List.mem_cons.mp hd with h1 | h1
      · subst h1
        have h10 : n % 10 < 10 := Nat.mod_lt _ (by norm_num)
        have ht : (Char.ofNat (n % 10 + 48)).toNat = n % 10 + 48 :=
          char_toNat_ofNat (by omega)
        unfold isDigitChar
        rw [ht]
        exact decide_eq_true ⟨by omega, by omega⟩
      · exact h d h1

theorem natToDigitsF_zero (fuel : Nat) (acc : List Char) :
    natToDigitsF fuel 0 acc = acc := by
  cases fuel with
  | zero => rfl
  | succ f => rfl

theorem digitsToNat_natToDigitsF :
    ∀ (fuel n : Nat), n ≤ fuel → n ≠ 0 → digitsToNat (natToDigitsF fuel n []) = n
  | 0, n, hle, hne => absurd (Nat.le_zero.mp hle) hne
  | fuel + 1, n, hle, hne => by
    have hstep : natToDigitsF (fuel + 1) n [] =
        natToDigitsF fuel (n / 10) [] ++ [Char.ofNat (n % 10 + 48)] := by
      show (if n = 0 then ([] : List Char)
        else natToDigitsF fuel (n / 10) (Char.ofNat (n % 10 + 48) :: [])) = _
      rw [if_neg hne]
      exact natToDigitsF_acc fuel (n / 10) [Char.ofNat (n % 10 + 48)]
    have h10 : n % 10 < 10 := Nat.mod_lt _ (by norm_num)
    have hdv : digitVal (Char.ofNat (n % 10 + 48)) = n % 10 := by
      unfold digitVal
      rw [char_toNat_ofNat (by omega)]
      omega
    by_cases hq : n / 10 = 0
    · rw [hstep, hq, natToDigitsF_zero]
      have : digitsToNat [Char.ofNat (n % 10 + 48)] = n % 10 := by
        unfold digitsToNat
        simp [hdv]
      rw [List.nil_append, this]
      omega
    · have hqle : n / 10 ≤ fuel := by
        have := Nat.div_lt_self (Nat.pos_of_ne_zero hne) (by norm_num : 1 < 10)
        omega
      have hrec := digitsToNat_natToDigitsF fuel (n / 10) hqle hq
      rw [hstep]
      unfold digitsToNat
      rw [List.foldl_append]
      unfold digitsToNat at hrec
      rw [hrec]
      simp only [List.foldl_cons, List.foldl_nil, hdv]
      omega

theorem digitsToNat_natToDigits (n : Nat) : digitsToNat (natToDigits n) = n := by
  unfold natToDigits
  split
  · next h =>
    subst h
    rfl
  · next h => exact digitsToNat_natToDigitsF n n le_rfl h

theorem natToDigits_digits (n : Nat) : ∀ c ∈ natToDigits n, isDigitChar c = true := by
  unfold natToDigits
  split
  · intro c hc
    have : c = '0' := by simpa using hc
    subst this
    decide
  · exact natToDigitsF_digits n n []
      (fun c hc => absurd hc (List.not_mem_nil c))

theorem natToDigits_ne_nil (n : Nat) : natToDigits n ≠ [] := by
  unfold natToDigits
  split
  · simp
  · next h =>
    cases n with
    | zero => exact absurd rfl h
    | succ m =>
      show natToDigitsF (m + 1) (m + 1) [] ≠ []
      unfold natToDigitsF
      rw [if_neg h, natToDigitsF_acc]
      simp

/-- Whether a remainder cannot extend a digit prefix. -/
def headNotDigit : List Char → Bool
  | [] => true
  | c :: _ => ! isDigitChar c

theorem takeDigits_exact :
    ∀ ds rest : List Char, (∀ c ∈ ds, isDigitChar c = true) →
      headNotDigit rest = true → takeDigits (ds ++ rest) = (ds, rest)
  | [], rest => by
    intro h1 h2
    cases rest with
    | nil => rfl
    | cons c r =>
      have hc : isDigitChar c = false := by simpa [headNotDigit] using h2
      show takeDigits (c :: r) = ([], c :: r)
      unfold takeDigits
      rw [hc]
      simp
  | d :: ds, rest => by
    intro h1 h2
    have hd := h1 d (List.mem_cons_self _ _)
    show takeDigits (d :: (ds ++ rest)) = (d :: ds, rest)
    unfold takeDigits
    rw [hd]
    show (d :: (takeDigits (ds ++ rest)).1, (takeDigits (ds ++ rest)).2) = (d :: ds, rest)
    rw [takeDigits_exact ds rest (fun c hc => h1 c (List.mem_cons_of_mem _ hc)) h2]

theorem number_i64_render (n : Nat) (rest : List Char) (h : headNotDigit rest = true) :
    number_i64 (natToDigits n ++ rest) = some ((n : Int), rest) := by
  unfold number_i64
  rw [takeDigits_exact (natToDigits n) rest (natToDigits_digits n) h]
  cases hd : natToDigits n with
  | nil => exact absurd hd (natToDigits_ne_nil n)
  | cons d ds =>
    show some ((digitsToNat (d :: ds) : Int), rest) = some ((n : Int), rest)
    rw [← hd, digitsToNat_natToDigits]

theorem parse_header_render (n1 n2 : Nat) (body : List Char) :
    parse_header
        ('\x7b' :: (natToDigits n1 ++ ('\x7d' :: '\x7b' ::
          (natToDigits n2 ++ ('\x7d' :: body))))) =
      some ((n1 : Int), (n2 : Int), body) := by
  have h1 := number_i64_render n1
    ('\x7d' :: '\x7b' :: (natToDigits n2 ++ ('\x7d' :: body))) rfl
  have h2 := number_i64_render n2 ('\x7d' :: body) rfl
  simp only [parse_header, h1, h2]

theorem intToDecimal_data_of_nonneg {i : Int} (h : 0 ≤ i) :
    (intToDecimal i).data = natToDigits i.natAbs := by
  unfold intToDecimal
  rw [if_neg (by omega : ¬ i < 0)]

/-! ### Lemmas: the characters of a rendered container line -/

theorem concatAll_data :
    ∀ ss : List String, (concatAll ss).data = (ss.map String.data).flatten
  | [] => rfl
  | s :: ss => by
    show (s ++ concatAll ss).data = _
    rw [String.data_append, concatAll_data ss]
    simp

theorem renderTagBlock_data (t : String) (mult : Bool) :
    (renderTagBlock t mult).data =
      '\x7b' :: ((to_formatting_string t mult).data ++ ['\x7d']) := by
  unfold renderTagBlock
  have h1 : ("\x7b" : String).data = ['\x7b'] := rfl
  have h2 : ("\x7d" : String).data = ['\x7d'] := rfl
  rw [String.data_append, String.data_append, h1, h2]
  simp

/-- The characters of a sequence of rendered tag blocks. -/
def blocksData (ts : List String) : List Char :=
  (ts.map (fun t => '\x7b' :: (t.data ++ ['\x7d']))).flatten

theorem concatAll_renderTagBlock_data (ts : List String) (mult : Bool) :
    (concatAll (ts.map (fun t => renderTagBlock t mult))).data =
      blocksData (ts.map (fun t => to_formatting_string t mult)) := by
  rw [concatAll_data, List.map_map]
  unfold blocksData
  rw [List.map_map]
  congr 1

theorem joinSep_cons_cons (sep p q : String) (ps : List String) :
    joinSep sep (p :: q :: ps) = p ++ sep ++ joinSep sep (q :: ps) := rfl

/-! ### Lemmas: reparsing rendered tag blocks and segments -/

theorem parse_sub_info_nil : parse_sub_info [] = none := rfl

theorem parse_sub_info_none_of_head {c : Char} (h : c ≠ '\x7b') (r : List Char) :
    parse_sub_info (c :: r) = none := by
  unfold parse_sub_info
  split
  · rename_i rest heq
    injection heq with h1 h2
    exact absurd h1 h
  · rfl

theorem takeNonBrace_exact :
    ∀ content rest : List Char, (∀ c ∈ content, c ≠ '\x7d') →
      takeNonBrace (content ++ '\x7d' :: rest) = (content, '\x7d' :: rest)
  | [], rest => by
    intro _
    show takeNonBrace ('\x7d' :: rest) = ([], '\x7d' :: rest)
    unfold takeNonBrace
    rw [if_pos rfl]
  | c0 :: content, rest => by
    intro h
    have hc0 := h c0 (List.mem_cons_self _ _)
    show takeNonBrace (c0 :: (content ++ '\x7d' :: rest)) = (c0 :: content, '\x7d' :: rest)
    unfold takeNonBrace
    rw [if_neg hc0]
    show (c0 :: (takeNonBrace (content ++ '\x7d' :: rest)).1,
      (takeNonBrace (content ++ '\x7d' :: rest)).2) = _
    rw [takeNonBrace_exact content rest (fun c hc => h c (List.mem_cons_of_mem _ hc))]

theorem parse_sub_info_block (content rest : List Char)
    (h : ∀ c ∈ content, c ≠ '\x7d') :
    parse_sub_info ('\x7b' :: (content ++ '\x7d' :: rest)) =
      some (String.mk content, rest) := by
  simp only [parse_sub_info, takeNonBrace_exact content rest h]

theorem parseManyInfos_blocks :
    ∀ (ts : List String) (rest : List Char),
      (∀ t ∈ ts, ∀ c ∈ t.data, c ≠ '\x7d') →
      parse_sub_info rest = none →
      parseManyInfos (blocksData ts ++ rest) = (ts, rest)
  | [], rest => by
    intro _ hr
    show parseManyInfos rest = ([], rest)
    rw [parseManyInfos_eq, hr]
  | t :: ts, rest => by
    intro h hr
    have hblock : blocksData (t :: ts) ++ rest =
        '\x7b' :: (t.data ++ '\x7d' :: (blocksData ts ++ rest)) := by
      show ('\x7b' :: (t.data ++ ['\x7d'])) ++ blocksData ts ++ rest = _
      simp [List.append_assoc]
    have h1 := parse_sub_info_block t.data (blocksData ts ++ rest)
      (fun c hc => h t (List.mem_cons_self _ _) c hc)
    rw [parseManyInfos_eq, hblock, h1]
    show (String.mk t.data :: (parseManyInfos (blocksData ts ++ rest)).1,
      (parseManyInfos (blocksData ts ++ rest)).2) = (t :: ts, rest)
    rw [parseManyInfos_blocks ts rest (fun t' ht' => h t' (List.mem_cons_of_mem _ ht')) hr,
      mk_data]

/-- Whether a remainder starts a new segment (or ends the line). -/
def headPipeOrNil : List Char → Bool
  | [] => true
  | c :: _ => decide (c = '|')

/-- Whether a list does not start with an opening brace. -/
def headNotBrace : List Char → Bool
  | [] => true
  | c :: _ => decide (c ≠ '\x7b')

theorem takeText_exact :
    ∀ x rest : List Char, (∀ c ∈ x, c ≠ '|') → headPipeOrNil rest = true →
      takeText (x ++ rest) = (x, rest)
  | [], rest => by
    intro _ h2
    cases rest with
    | nil => rfl
    | cons c r =>
      have hc : c = '|' := by simpa [headPipeOrNil] using h2
      subst hc
      show takeText ('|' :: r) = ([], '|' :: r)
      unfold takeText
      rw [if_pos rfl]
  | c0 :: x, rest => by
    intro h1 h2
    have hc0 := h1 c0 (List.mem_cons_self _ _)
    show takeText (c0 :: (x ++ rest)) = (c0 :: x, rest)
    unfold takeText
    rw [if_neg hc0]
    show (c0 :: (takeText (x ++ rest)).1, (takeText (x ++ rest)).2) = _
    rw [takeText_exact x rest (fun c hc => h1 c (List.mem_cons_of_mem _ hc)) h2]

theorem parse_sub_info_text_none (x : String) (rest : List Char)
    (hxb : headNotBrace x.data = true) (hrest : headPipeOrNil rest = true) :
    parse_sub_info (x.data ++ rest) = none := by
  cases hx : x.data with
  | nil =>
    rw [List.nil_append]
    cases rest with
    | nil => rfl
    | cons c r =>
      have hc : c = '|' := by simpa [headPipeOrNil] using hrest
      subst hc
      exact parse_sub_info_none_of_head (by decide) r
  | cons c cs =>
    have hc : c ≠ '\x7b' := by
      have h := hxb
      rw [hx] at h
      simpa [headNotBrace] using h
    exact parse_sub_info_none_of_head hc _

theorem parse_single_line_render (ts : List String) (x : String) (rest : List Char)
    (hts : ∀ t ∈ ts, ∀ c ∈ t.data, c ≠ '\x7d')
    (hx : ∀ c ∈ x.data, c ≠ '|')
    (hxh : parse_sub_info (x.data ++ rest) = none)
    (hrest : headPipeOrNil rest = true) :
    parse_single_line (blocksData ts ++ (x.data ++ rest)) = ((ts, x), rest) := by
  have h1 : parseManyInfos (blocksData ts ++ (x.data ++ rest)) = (ts, x.data ++ rest) :=
    parseManyInfos_blocks ts (x.data ++ rest) hts hxh
  have h2 : takeText (x.data ++ rest) = (x.data, rest) := takeText_exact x.data rest hx hrest
  show (((parseManyInfos (blocksData ts ++ (x.data ++ rest))).1,
      String.mk (takeText (parseManyInfos (blocksData ts ++ (x.data ++ rest))).2).1),
    (takeText (parseManyInfos (blocksData ts ++ (x.data ++ rest))).2).2) = ((ts, x), rest)
  rw [h1]
  show ((ts, String.mk (takeText (x.data ++ rest)).1), (takeText (x.data ++ rest)).2) =
    ((ts, x), rest)
  rw [h2, mk_data]

/-- The characters of one rendered member segment. -/
def segData (r : List String × String) : List Char := blocksData r.1 ++ r.2.data

/-- The characters of the pipe-joined member segments. -/
def segsData : List (List String × String) → List Char
  | [] => []
  | [r] => segData r
  | r :: rs => segData r ++ '|' :: segsData rs

theorem parseSegments_render :
    ∀ rs : List (List String × String), rs ≠ [] →
      (∀ r ∈ rs, (∀ t ∈ r.1, ∀ c ∈ t.data, c ≠ '\x7d') ∧
        (∀ c ∈ r.2.data, c ≠ '|') ∧ headNotBrace r.2.data = true) →
      parseSegments (segsData rs) = (rs, [])
  | [] => fun h _ => absurd rfl h
  | [r] => by
    intro _ h
    obtain ⟨h1, h2, h3⟩ := h r (List.mem_singleton.mpr rfl)
    have hsl : parse_single_line (segsData [r]) = ((r.1, r.2), []) := by
      show parse_single_line (blocksData r.1 ++ r.2.data) = ((r.1, r.2), [])
      have hx := parse_single_line_render r.1 r.2 [] h1 h2
        (parse_sub_info_text_none r.2 [] h3 rfl) rfl
      rw [List.append_nil] at hx
      exact hx
    rw [parseSegments_eq, hsl]
  | r :: r2 :: rs => by
    intro _ h
    obtain ⟨h1, h2, h3⟩ := h r (List.mem_cons_self _ _)
    have hdata : segsData (r :: r2 :: rs) =
        blocksData r.1 ++ (r.2.data ++ ('|' :: segsData (r2 :: rs))) := by
      show segData r ++ '|' :: segsData (r2 :: rs) = _
      simp [segData, List.append_assoc]
    have hsl : parse_single_line (segsData (r :: r2 :: rs)) =
        ((r.1, r.2), '|' :: segsData (r2 :: rs)) := by
      rw [hdata]
      exact parse_single_line_render r.1 r.2 ('|' :: segsData (r2 :: rs)) h1 h2
        (parse_sub_info_text_none r.2 _ h3 rfl) rfl
    rw [parseSegments_eq, hsl]
    show (if '|' = '|' then
        ((r.1, r.2) :: (parseSegments (segsData (r2 :: rs))).1,
          (parseSegments (segsData (r2 :: rs))).2)
      else ([(r.1, r.2)], '|' :: segsData (r2 :: rs))) = (r :: r2 :: rs, [])
    rw [if_pos rfl,
      parseSegments_render (r2 :: rs) (by simp)
        (fun r' hr' => h r' (List.mem_cons_of_mem _ hr'))]

/-! ### The side conditions under which serialization round-trips -/

/-- A tag whose first character has a genuine uppercase form: uppercasing it
yields an uppercase character (false for the empty tag).  A tag failing this —
e.g. `1:a`, whose first character is caseless — is rendered group-scoped
indistinguishably from line-scoped, which breaks round-tripping (see the
counterexample to C1). -/
def casedTag (t : String) : Bool :=
  match t.data with
  | [] => false
  | c :: _ => charIsUpper (charToUpper c)

/-- Whether a list of characters does not end in a carriage return (a text
ending in `\r` loses that character when the serialized line is re-split by
`str::lines`). -/
def lastNotCR (l : List Char) : Bool :=
  match l.getLast? with
  | none => true
  | some c => decide (c.toNat ≠ 13)

/-- The sub-lines on which serialization round-trips byte-for-byte: every tag
has a cased first character, and the text neither starts with an opening brace
(which would be swallowed into the tag blocks on reparse) nor ends with a
carriage return. -/
def GoodLine (m : MdvdLine) : Prop :=
  (∀ t ∈ m.formatting, casedTag t = true) ∧
  headNotBrace m.text.data = true ∧ lastNotCR m.text.data = true

instance : DecidablePred GoodLine := fun m => by unfold GoodLine; infer_instance

/-! ### Lemmas: classification of rendered tags on reparse -/

theorem lowercase_first_char_eq_self {t : String} (h : HeadNotUpper t) :
    lowercase_first_char t = t := by
  unfold lowercase_first_char
  cases hd : t.data with
  | nil =>
    show ("" : String) = t
    exact (string_data_ext (by rw [hd])).symm
  | cons c cs =>
    have hc : charIsUpper c = false := by
      have h' := h
      unfold HeadNotUpper at h'
      rw [hd] at h'
      exact h'
    show String.mk (charToLower c :: cs) = t
    rw [charToLower_eq_self hc]
    exact string_data_ext (by rw [hd])

theorem lower_upper_first {t : String} (hcase : casedTag t = true) (hhead : HeadNotUpper t) :
    lowercase_first_char (uppercase_first_char t) = t := by
  unfold uppercase_first_char
  cases hd : t.data with
  | nil =>
    unfold casedTag at hcase
    rw [hd] at hcase
    exact absurd hcase (by simp)
  | cons c cs =>
    have hc : charIsUpper c = false := by
      have h' := hhead
      unfold HeadNotUpper at h'
      rw [hd] at h'
      exact h'
    have hcase' : charIsUpper (charToUpper c) = true := by
      unfold casedTag at hcase
      rw [hd] at hcase
      exact hcase
    show String.mk (charToLower (charToUpper c) :: cs) = t
    rw [charToLower_charToUpper hc hcase']
    exact string_data_ext (by rw [hd])

theorem is_container_upper {t : String} (hcase : casedTag t = true) :
    is_container_line_formatting (uppercase_first_char t) = true := by
  unfold uppercase_first_char
  cases hd : t.data with
  | nil =>
    unfold casedTag at hcase
    rw [hd] at hcase
    exact absurd hcase (by simp)
  | cons c cs =>
    have hcase' : charIsUpper (charToUpper c) = true := by
      unfold casedTag at hcase
      rw [hd] at hcase
      exact hcase
    show charIsUpper (charToUpper c) = true
    exact hcase'

theorem is_container_of_headNotUpper {t : String} (h : HeadNotUpper t) :
    is_container_line_formatting t = false := by
  unfold is_container_line_formatting
  cases hd : t.data with
  | nil => rfl
  | cons c cs =>
    have h' := h
    unfold HeadNotUpper at h'
    rw [hd] at h'
    exact h'

theorem charToUpper_ne_rbrace {c : Char} (h : c ≠ '\x7d') : charToUpper c ≠ '\x7d' := by
  unfold charToUpper
  split
  · next hc =>
    intro he
    have h1 : (Char.ofNat (c.toNat - 32)).toNat = c.toNat - 32 :=
      char_toNat_ofNat (by omega)
    rw [he] at h1
    have h2 : ('\x7d' : Char).toNat = 125 := rfl
    omega
  · exact h

theorem uppercase_first_char_chars {t : String} (h : ∀ c ∈ t.data, c ≠ '\x7d') :
    ∀ c ∈ (uppercase_first_char t).data, c ≠ '\x7d' := by
  unfold uppercase_first_char
  cases hd : t.data with
  | nil => intro c hc; exact absurd hc (List.not_mem_nil c)
  | cons c0 cs =>
    intro c hc
    have hc' : c ∈ charToUpper c0 :: cs := hc
    rcases List.mem_cons.mp hc' with h1 | h1
    · subst h1
      exact charToUpper_ne_rbrace (h c0 (by rw [hd]; exact List.mem_cons_self _ _))
    · exact h c (by rw [hd]; exact List.mem_cons_of_mem _ h1)

/-! ### Lemmas: reparsing one whole rendered container line -/

theorem blocksData_append (a b : List String) :
    blocksData (a ++ b) = blocksData a ++ blocksData b := by
  unfold blocksData
  rw [List.map_append, List.flatten_append]

theorem segsData_cons_append (a ts : List String) (x : String)
    (rs : List (List String × String)) :
    segsData ((a ++ ts, x) :: rs) = blocksData a ++ segsData ((ts, x) :: rs) := by
  cases rs with
  | nil =>
    show segData (a ++ ts, x) = blocksData a ++ segData (ts, x)
    unfold segData
    rw [blocksData_append]
    simp [List.append_assoc]
  | cons r rs =>
    show segData (a ++ ts, x) ++ '|' :: segsData (r :: rs) =
      blocksData a ++ (segData (ts, x) ++ '|' :: segsData (r :: rs))
    unfold segData
    rw [blocksData_append]
    simp [List.append_assoc]

theorem renderMember_data (ind : List String) (text : String)
    (hind : ∀ t ∈ ind, HeadNotUpper t) :
    (renderMember ind text).data = segData (ind, text) := by
  unfold renderMember segData
  rw [String.data_append, concatAll_renderTagBlock_data]
  have hmap : ind.map (fun t => to_formatting_string t false) = ind.map id :=
    List.map_congr_left (fun t ht => lowercase_first_char_eq_self (hind t ht))
  rw [hmap, List.map_id]

theorem joinSep_members_data :
    ∀ (F : (List String × String) → String) (rs : List (List String × String)),
      (∀ r ∈ rs, (F r).data = segData r) →
      (joinSep "|" (rs.map F)).data = segsData rs
  | _, [] => fun _ => rfl
  | F, [r] => by
    intro h
    show (F r).data = segData r
    exact h r (List.mem_singleton.mpr rfl)
  | F, r :: r2 :: rs => by
    intro h
    have hrec := joinSep_members_data F (r2 :: rs)
      (fun r' hr' => h r' (List.mem_cons_of_mem _ hr'))
    show (F r ++ "|" ++ joinSep "|" ((r2 :: rs).map F)).data =
      segData r ++ '|' :: segsData (r2 :: rs)
    rw [String.data_append, String.data_append, h r (List.mem_cons_self _ _),
      show ("|" : String).data = ['|'] from rfl, hrec]
    simp [List.append_assoc]

theorem renderGroup_data (k : Int × Int) (ms : List MdvdLine)
    (hk1 : 0 ≤ k.1) (hk2 : 0 ≤ k.2) :
    (renderGroup k ms).data =
      '\x7b' :: (natToDigits k.1.natAbs ++ ('\x7d' :: '\x7b' ::
        (natToDigits k.2.natAbs ++ ('\x7d' ::
          ((concatAll ((commonOfGroup ms.length (ms.map fun l => setOfList l.formatting)).map
            (fun t => renderTagBlock t true))).data ++
           (joinSep "|" (ms.map fun m =>
             renderMember
               (diffS (setOfList m.formatting)
                 (commonOfGroup ms.length (ms.map fun l => setOfList l.formatting)))
               m.text)).data))))) := by
  rw [renderGroup_eq]
  rw [String.data_append, String.data_append, String.data_append, String.data_append,
    String.data_append, String.data_append, String.data_append]
  rw [intToDecimal_data_of_nonneg hk1, intToDecimal_data_of_nonneg hk2]
  rw [show ("\x7b" : String).data = ['\x7b'] from rfl,
    show ("\x7d" : String).data = ['\x7d'] from rfl]
  simp [List.append_assoc]

/-- What one rendered container line parses back to: all members take the run
key as frames, and each member's formatting is the common set (in set-iteration
order) followed by its own set minus the common set. -/
def reparsedRun (k : Int × Int) (ms : List MdvdLine) : List MdvdLine :=
  let common := commonOfGroup ms.length (ms.map fun l => setOfList l.formatting)
  ms.map (fun m =>
    { start_frame := k.1, end_frame := k.2,
      formatting := common ++ diffS (setOfList m.formatting) common,
      text := m.text })

theorem construct_eq_reparsed (k1 k2 : Int) (common : List String)
    (m0 : MdvdLine) (mrest : List MdvdLine)
    (hcommCase : ∀ t ∈ common, casedTag t = true)
    (hcommHead : ∀ t ∈ common, HeadNotUpper t)
    (hindHead : ∀ m ∈ m0 :: mrest, ∀ t ∈ diffS (setOfList m.formatting) common,
      HeadNotUpper t) :
    construct_mdvd_lines k1 k2
      ((common.map uppercase_first_char ++ diffS (setOfList m0.formatting) common, m0.text)
        :: mrest.map (fun m => (diffS (setOfList m.formatting) common, m.text))) =
      (m0 :: mrest).map (fun m =>
        { start_frame := k1, end_frame := k2,
          formatting := common ++ diffS (setOfList m.formatting) common,
          text := m.text }) := by
  have hfiltC : (common.map uppercase_first_char).filter is_container_line_formatting =
      common.map uppercase_first_char := by
    rw [List.filter_eq_self]
    intro t ht
    obtain ⟨u, hu, hut⟩ := List.mem_map.mp ht
    rw [← hut]
    exact is_container_upper (hcommCase u hu)
  have hfiltD : ∀ m ∈ m0 :: mrest,
      (diffS (setOfList m.formatting) common).filter is_container_line_formatting = [] := by
    intro m hm
    rw [List.filter_eq_nil_iff]
    intro t ht
    rw [is_container_of_headNotUpper (hindHead m hm t ht)]
    simp
  have hCmap : (common.map uppercase_first_char).map mdvdFormattingFrom = common := by
    rw [List.map_map]
    have : common.map (mdvdFormattingFrom ∘ uppercase_first_char) = common.map id :=
      List.map_congr_left
        (fun t ht => lower_upper_first (hcommCase t ht) (hcommHead t ht))
    rw [this, List.map_id]
  have hnotC : (common.map uppercase_first_char).filter
      (fun f => ! is_container_line_formatting f) = [] := by
    rw [List.filter_eq_nil_iff]
    intro t ht
    obtain ⟨u, hu, hut⟩ := List.mem_map.mp ht
    rw [← hut, is_container_upper (hcommCase u hu)]
    simp
  have hnotD : ∀ m ∈ m0 :: mrest,
      (diffS (setOfList m.formatting) common).filter
        (fun f => ! is_container_line_formatting f) =
      diffS (setOfList m.formatting) common := by
    intro m hm
    rw [List.filter_eq_self]
    intro t ht
    rw [is_container_of_headNotUpper (hindHead m hm t ht)]
    simp
  have hDmap : ∀ m ∈ m0 :: mrest,
      (diffS (setOfList m.formatting) common).map mdvdFormattingFrom =
        diffS (setOfList m.formatting) common := by
    intro m hm
    have : (diffS (setOfList m.formatting) common).map mdvdFormattingFrom =
        (diffS (setOfList m.formatting) common).map id :=
      List.map_congr_left
        (fun t ht => lowercase_first_char_eq_self (hindHead m hm t ht))
    rw [this, List.map_id]
  have hflatnil : ∀ l : List MdvdLine,
      ((l.map (fun _ => ([] : List MdvdFormatting))).flatten) = [] := by
    intro l
    induction l with
    | nil => rfl
    | cons a l ih => simpa using ih
  have hcline :
      ((((common.map uppercase_first_char ++ diffS (setOfList m0.formatting) common,
          m0.text) :: mrest.map (fun m => (diffS (setOfList m.formatting) common, m.text))).map
        (fun p => (p.1.filter is_container_line_formatting).map mdvdFormattingFrom)).flatten)
      = common := by
    rw [List.map_cons, List.map_map, List.flatten_cons]
    have h1 : ((common.map uppercase_first_char ++
        diffS (setOfList m0.formatting) common).filter
          is_container_line_formatting).map mdvdFormattingFrom = common := by
      rw [List.filter_append, hfiltC, hfiltD m0 (List.mem_cons_self _ _), List.append_nil,
        hCmap]
    have h2 : mrest.map ((fun p : List String × String =>
        (p.1.filter is_container_line_formatting).map mdvdFormattingFrom) ∘
          (fun m => (diffS (setOfList m.formatting) common, m.text))) =
        mrest.map (fun _ => ([] : List MdvdFormatting)) := by
      refine List.map_congr_left ?_
      intro m hm
      show ((diffS (setOfList m.formatting) common).filter
        is_container_line_formatting).map mdvdFormattingFrom = []
      rw [hfiltD m (List.mem_cons_of_mem _ hm)]
      rfl
    rw [h1, h2, hflatnil, List.append_nil]
  simp only [construct_mdvd_lines]
  rw [hcline]
  rw [List.map_cons, List.map_cons, List.map_map]
  congr 1
  · rw [List.filter_append, hnotC, List.nil_append, hnotD m0 (List.mem_cons_self _ _),
      hDmap m0 (List.mem_cons_self _ _)]
  · refine List.map_congr_left ?_
    intro m hm
    show ({ start_frame := k1,
            end_frame := k2,
            formatting := common ++ ((diffS (setOfList m.formatting) common).filter
              (fun f => ! is_container_line_formatting f)).map mdvdFormattingFrom,
            text := m.text } : MdvdLine) = _
    rw [hnotD m (List.mem_cons_of_mem _ hm), hDmap m (List.mem_cons_of_mem _ hm)]

theorem parse_body_segments (common : List String) (m0 : MdvdLine) (mrest : List MdvdLine)
    (hcommTag : ∀ t ∈ common, TagInv t)
    (hcommCase : ∀ t ∈ common, casedTag t = true)
    (hindTag : ∀ m ∈ m0 :: mrest, ∀ t ∈ diffS (setOfList m.formatting) common, TagInv t)
    (hinv : ∀ m ∈ m0 :: mrest, ParseInv m)
    (hgood : ∀ m ∈ m0 :: mrest, GoodLine m) :
    parseSegments
      ((concatAll (common.map (fun t => renderTagBlock t true))).data ++
       (joinSep "|" ((m0 :: mrest).map fun m =>
         renderMember (diffS (setOfList m.formatting) common) m.text)).data) =
      ((common.map uppercase_first_char ++ diffS (setOfList m0.formatting) common, m0.text)
        :: mrest.map (fun m => (diffS (setOfList m.formatting) common, m.text)), []) := by
  have hmemdata : ∀ r ∈ (m0 :: mrest).map
      (fun m => (diffS (setOfList m.formatting) common, m.text)),
      (renderMember r.1 r.2).data = segData r := by
    intro r hr
    obtain ⟨m, hm, hrm⟩ := List.mem_map.mp hr
    rw [← hrm]
    exact renderMember_data _ _ (fun t ht => (hindTag m hm t ht).2)
  have hmm : (m0 :: mrest).map
      (fun m => renderMember (diffS (setOfList m.formatting) common) m.text) =
      ((m0 :: mrest).map (fun m => (diffS (setOfList m.formatting) common, m.text))).map
        (fun r => renderMember r.1 r.2) := by
    rw [List.map_map]
    rfl
  have hjoin := joinSep_members_data (fun r => renderMember r.1 r.2)
    ((m0 :: mrest).map (fun m => (diffS (setOfList m.formatting) common, m.text))) hmemdata
  have hconcat := concatAll_renderTagBlock_data common true
  have hCup : common.map (fun t => to_formatting_string t true) =
      common.map uppercase_first_char := rfl
  rw [hmm, hjoin, hconcat, hCup, List.map_cons, ← segsData_cons_append]
  refine parseSegments_render _ (by simp) ?_
  intro r hr
  rcases List.mem_cons.mp hr with h | h
  · subst h
    refine ⟨?_, ?_, ?_⟩
    · intro t ht c hc
      rcases List.mem_append.mp ht with h1 | h1
      · obtain ⟨u, hu, hut⟩ := List.mem_map.mp h1
        rw [← hut] at hc
        exact uppercase_first_char_chars (fun c' hc' => ((hcommTag u hu).1 c' hc').1) c hc
      · exact ((hindTag m0 (List.mem_cons_self _ _) t h1).1 c hc).1
    · intro c hc
      exact ((hinv m0 (List.mem_cons_self _ _)).2.2.2 c hc).1
    · exact (hgood m0 (List.mem_cons_self _ _)).2.1
  · obtain ⟨m, hm, hrm⟩ := List.mem_map.mp h
    rw [← hrm]
    refine ⟨?_, ?_, ?_⟩
    · intro t ht c hc
      exact ((hindTag m (List.mem_cons_of_mem _ hm) t ht).1 c hc).1
    · intro c hc
      exact ((hinv m (List.mem_cons_of_mem _ hm)).2.2.2 c hc).1
    · exact (hgood m (List.mem_cons_of_mem _ hm)).2.1

/-- Reparsing one rendered container line: under the parse invariant and the
round-trip side conditions, `parse_container_line` applied to a rendered run
succeeds and produces exactly `reparsedRun`. -/
theorem parse_container_line_renderGroup (k : Int × Int) (ms : List MdvdLine)
    (hne : ms ≠ [])
    (hkey : ∀ m ∈ ms, lineKey m = k)
    (hinv : ∀ m ∈ ms, ParseInv m)
    (hgood : ∀ m ∈ ms, GoodLine m) :
    parse_container_line (renderGroup k ms) = some (reparsedRun k ms) := by
  obtain ⟨m0, mrest, hms⟩ : ∃ m0 mrest, ms = m0 :: mrest := by
    cases ms with
    | nil => exact absurd rfl hne
    | cons a l => exact ⟨a, l, rfl⟩
  subst hms
  have hm0k := hkey m0 (List.mem_cons_self _ _)
  have hk1 : 0 ≤ k.1 := by
    have h1 : m0.start_frame = k.1 := congrArg Prod.fst hm0k
    rw [← h1]
    exact (hinv m0 (List.mem_cons_self _ _)).1
  have hk2 : 0 ≤ k.2 := by
    have h1 : m0.end_frame = k.2 := congrArg Prod.snd hm0k
    rw [← h1]
    exact (hinv m0 (List.mem_cons_self _ _)).2.1
  have hcommTag : ∀ t ∈ commonOfGroup (m0 :: mrest).length
      ((m0 :: mrest).map fun l => setOfList l.formatting), TagInv t := by
    intro t ht
    obtain ⟨m, hm, htm⟩ := commonOfGroup_subset _ _ t ht
    exact (hinv m hm).2.2.1 t htm
  have hcommCase : ∀ t ∈ commonOfGroup (m0 :: mrest).length
      ((m0 :: mrest).map fun l => setOfList l.formatting), casedTag t = true := by
    intro t ht
    obtain ⟨m, hm, htm⟩ := commonOfGroup_subset _ _ t ht
    exact (hgood m hm).1 t htm
  have hindTag : ∀ m ∈ m0 :: mrest, ∀ t ∈ diffS (setOfList m.formatting)
      (commonOfGroup (m0 :: mrest).length
        ((m0 :: mrest).map fun l => setOfList l.formatting)), TagInv t := by
    intro m hm t ht
    have h1 := ((mem_diffS t _ _).mp ht).1
    exact (hinv m hm).2.2.1 t ((mem_setOfList t _).mp h1)
  have hbody := parse_body_segments
    (commonOfGroup (m0 :: mrest).length ((m0 :: mrest).map fun l => setOfList l.formatting))
    m0 mrest hcommTag hcommCase hindTag hinv hgood
  have hcons := construct_eq_reparsed k.1 k.2
    (commonOfGroup (m0 :: mrest).length ((m0 :: mrest).map fun l => setOfList l.formatting))
    m0 mrest hcommCase (fun t ht => (hcommTag t ht).2)
    (fun m hm t ht => (hindTag m hm t ht).2)
  have hdata := renderGroup_data k (m0 :: mrest) hk1 hk2
  simp only [parse_container_line, hdata, parse_header_render, Int.natAbs_of_nonneg hk1,
    Int.natAbs_of_nonneg hk2, hbody]
  rw [hcons]
  simp only [reparsedRun]

/-! ### Lemmas: sorted lists are sort fixpoints; regrouping uniform blocks -/

theorem pairLt_irrefl (a : Int × Int) : ¬ pairLt a a := by
  intro h
  obtain ⟨x, y⟩ := a
  unfold pairLt at h
  simp only [] at h
  omega

theorem pairLe_of_pairLt {a b : Int × Int} (h : pairLt a b) : pairLe a b := by
  obtain ⟨x1, y1⟩ := a
  obtain ⟨x2, y2⟩ := b
  unfold pairLt at h
  unfold pairLe
  simp only [] at h ⊢
  omega

theorem sortLines_of_sorted : ∀ {v : List MdvdLine}, SortedKeys v → sortLines v = v
  | [] => fun _ => rfl
  | x :: v => fun h => by
    show sortInsert x (sortLines v) = x :: v
    rw [sortLines_of_sorted (List.pairwise_cons.mp h).2]
    cases v with
    | nil => rfl
    | cons y ys =>
      unfold sortInsert
      rw [if_pos ((List.pairwise_cons.mp h).1 y (List.mem_cons_self _ _))]

theorem pairwise_of_forall_mem {α : Type} {R : α → α → Prop} :
    ∀ l : List α, (∀ a ∈ l, ∀ b ∈ l, R a b) → l.Pairwise R
  | [] => fun _ => List.Pairwise.nil
  | x :: l => fun h =>
    List.Pairwise.cons
      (fun b hb => h x (List.mem_cons_self _ _) b (List.mem_cons_of_mem _ hb))
      (pairwise_of_forall_mem l
        (fun a ha b hb => h a (List.mem_cons_of_mem _ ha) b (List.mem_cons_of_mem _ hb)))

theorem sortedKeys_blocks :
    ∀ runs : List ((Int × Int) × List MdvdLine),
      (∀ g ∈ runs, ∀ m ∈ g.2, lineKey m = g.1) →
      (runs.map Prod.fst).Pairwise pairLt →
      SortedKeys ((runs.map Prod.snd).flatten)
  | [] => fun _ _ => List.Pairwise.nil
  | g :: runs => by
    intro hkeys hp
    show SortedKeys (g.2 ++ (runs.map Prod.snd).flatten)
    rw [List.map_cons] at hp
    obtain ⟨hg, hrest⟩ := List.pairwise_cons.mp hp
    unfold SortedKeys
    rw [List.pairwise_append]
    refine ⟨?_, sortedKeys_blocks runs
      (fun g' hg' => hkeys g' (List.mem_cons_of_mem _ hg')) hrest, ?_⟩
    · refine pairwise_of_forall_mem g.2 ?_
      intro a ha b hb
      rw [hkeys g (List.mem_cons_self _ _) a ha, hkeys g (List.mem_cons_self _ _) b hb]
      exact pairLe_refl g.1
    · intro a ha b hb
      rw [List.mem_flatten] at hb
      obtain ⟨s, hs, hbs⟩ := hb
      obtain ⟨g', hg', hgs⟩ := List.mem_map.mp hs
      rw [hkeys g (List.mem_cons_self _ _) a ha,
        hkeys g' (List.mem_cons_of_mem _ hg') b (by rw [hgs]; exact hbs)]
      exact pairLe_of_pairLt (hg g'.1 (List.mem_map_of_mem Prod.fst hg'))

theorem groupRuns_block :
    ∀ (ms : List MdvdLine) (k : Int × Int) (rest : List MdvdLine),
      ms ≠ [] → (∀ m ∈ ms, lineKey m = k) →
      (∀ p rest', groupRuns rest = p :: rest' → p.1 ≠ k) →
      groupRuns (ms ++ rest) = (k, ms) :: groupRuns rest
  | [], _, _ => fun h _ _ => absurd rfl h
  | [x], k, rest => by
    intro _ hkey hhead
    have hx : lineKey x = k := hkey x (List.mem_cons_self _ _)
    show groupRuns (x :: rest) = (k, [x]) :: groupRuns rest
    cases hgr : groupRuns rest with
    | nil => rw [groupRuns_cons_of_nil x hgr, hx]
    | cons p rest' =>
      obtain ⟨k', g'⟩ := p
      rw [groupRuns_cons_of_cons x hgr,
        if_neg (by rw [hx]; exact Ne.symm (hhead (k', g') rest' hgr)), hx]
  | x :: y :: ms, k, rest => by
    intro _ hkey hhead
    have hx : lineKey x = k := hkey x (List.mem_cons_self _ _)
    have hih := groupRuns_block (y :: ms) k rest (by simp)
      (fun m hm => hkey m (List.mem_cons_of_mem _ hm)) hhead
    show groupRuns (x :: ((y :: ms) ++ rest)) = (k, x :: y :: ms) :: groupRuns rest
    rw [groupRuns_cons_of_cons x hih, if_pos hx]

theorem groupRuns_blocks :
    ∀ runs : List ((Int × Int) × List MdvdLine),
      (∀ g ∈ runs, g.2 ≠ []) →
      (∀ g ∈ runs, ∀ m ∈ g.2, lineKey m = g.1) →
      List.Chain' pairLt (runs.map Prod.fst) →
      groupRuns ((runs.map Prod.snd).flatten) = runs
  | [] => fun _ _ _ => rfl
  | g :: runs => by
    intro hne hkeys hchain
    show groupRuns (g.2 ++ (runs.map Prod.snd).flatten) = g :: runs
    rw [List.map_cons] at hchain
    have hih := groupRuns_blocks runs
      (fun g' hg' => hne g' (List.mem_cons_of_mem _ hg'))
      (fun g' hg' => hkeys g' (List.mem_cons_of_mem _ hg'))
      hchain.tail
    rw [groupRuns_block g.2 g.1 _ (hne g (List.mem_cons_self _ _))
      (hkeys g (List.mem_cons_self _ _)) ?_, hih]
    · intro p rest' hp
      rw [hih] at hp
      cases runs with
      | nil => exact absurd hp (by simp)
      | cons g2 rs =>
        injection hp with h1 h2
        subst h1
        rw [List.map_cons] at hchain
        have hlt : pairLt g.1 g2.1 := (List.chain'_cons.mp hchain).1
        intro he
        rw [he] at hlt
        exact pairLt_irrefl g.1 hlt

/-! ### Lemmas: rendered container lines do not end in a carriage return -/

/-- No trailing carriage return (vacuously true of the empty list). -/
def LastOk (l : List Char) : Prop := ∀ c, l.getLast? = some c → c.toNat ≠ 13

theorem lastOk_nil : LastOk [] := fun c hc => absurd hc (by simp)

theorem lastOk_append {a b : List Char} (ha : LastOk a) (hb : LastOk b) :
    LastOk (a ++ b) := by
  cases hbn : b with
  | nil =>
    rw [List.append_nil]
    exact ha
  | cons x xs =>
    intro c hc
    rw [List.getLast?_append_of_ne_nil a (by simp)] at hc
    exact hb c (by rw [hbn]; exact hc)

theorem lastOk_of_all {l : List Char} (h : ∀ c ∈ l, c.toNat ≠ 13) : LastOk l :=
  fun c hc => h c (List.mem_of_mem_getLast? hc)

theorem lastOk_cons_of {c : Char} {l : List Char} (h : LastOk l) (hc : c.toNat ≠ 13) :
    LastOk (c :: l) := by
  cases hl : l with
  | nil =>
    intro d hd
    have h' : c = d := by simpa using hd
    rw [← h']
    exact hc
  | cons x xs =>
    intro d hd
    rw [List.getLast?_cons_cons] at hd
    exact h d (by rw [hl]; exact hd)

theorem digit_ne_cr {c : Char} (h : isDigitChar c = true) : c.toNat ≠ 13 := by
  unfold isDigitChar at h
  have := of_decide_eq_true h
  omega

theorem lastOk_blocksData : ∀ ts : List String, LastOk (blocksData ts)
  | [] => lastOk_nil
  | t :: ts => by
    show LastOk (('\x7b' :: (t.data ++ ['\x7d'])) ++ blocksData ts)
    refine lastOk_append ?_ (lastOk_blocksData ts)
    intro c hc
    have h1 : ('\x7b' :: (t.data ++ ['\x7d'])) = ('\x7b' :: t.data) ++ ['\x7d'] := by simp
    rw [h1, List.getLast?_concat] at hc
    injection hc with hc'
    rw [← hc']
    decide

theorem lastOk_joinSep_pipe :
    ∀ ps : List String, (∀ p ∈ ps, LastOk p.data) → LastOk (joinSep "|" ps).data
  | [] => fun _ => lastOk_nil
  | [p] => fun h => h p (List.mem_singleton.mpr rfl)
  | p :: q :: ps => by
    intro h
    show LastOk ((p ++ "|" ++ joinSep "|" (q :: ps)).data)
    rw [String.data_append]
    refine lastOk_append ?_
      (lastOk_joinSep_pipe (q :: ps) (fun p' hp' => h p' (List.mem_cons_of_mem _ hp')))
    rw [String.data_append]
    refine lastOk_append (h p (List.mem_cons_self _ _)) (lastOk_of_all ?_)
    intro c hc
    have h2 : c = '|' := by simpa using hc
    rw [h2]
    decide

theorem lastOk_of_lastNotCR {l : List Char} (h : lastNotCR l = true) : LastOk l := by
  intro c hc
  unfold lastNotCR at h
  rw [hc] at h
  exact of_decide_eq_true h

theorem lastOk_renderGroup (k : Int × Int) (ms : List MdvdLine)
    (hk1 : 0 ≤ k.1) (hk2 : 0 ≤ k.2)
    (hgood : ∀ m ∈ ms, lastNotCR m.text.data = true) :
    LastOk (renderGroup k ms).data := by
  rw [renderGroup_data k ms hk1 hk2]
  have hdig1 : LastOk (natToDigits k.1.natAbs) :=
    lastOk_of_all (fun c hc => digit_ne_cr (natToDigits_digits _ c hc))
  have hdig2 : LastOk (natToDigits k.2.natAbs) :=
    lastOk_of_all (fun c hc => digit_ne_cr (natToDigits_digits _ c hc))
  have hbody : LastOk
      ((concatAll ((commonOfGroup ms.length (ms.map fun l => setOfList l.formatting)).map
        (fun t => renderTagBlock t true))).data ++
       (joinSep "|" (ms.map fun m =>
         renderMember (diffS (setOfList m.formatting)
           (commonOfGroup ms.length (ms.map fun l => setOfList l.formatting))) m.text)).data) := by
    refine lastOk_append ?_ ?_
    · rw [concatAll_renderTagBlock_data]
      exact lastOk_blocksData _
    · refine lastOk_joinSep_pipe _ ?_
      intro p hp
      obtain ⟨m, hm, hmp⟩ := List.mem_map.mp hp
      rw [← hmp]
      show LastOk ((concatAll ((diffS (setOfList m.formatting)
        (commonOfGroup ms.length (ms.map fun l => setOfList l.formatting))).map
          (fun t => renderTagBlock t false)) ++ m.text).data)
      rw [String.data_append, concatAll_renderTagBlock_data]
      exact lastOk_append (lastOk_blocksData _) (lastOk_of_lastNotCR (hgood m hm))
  refine lastOk_cons_of ?_ (by decide)
  refine lastOk_append hdig1 ?_
  refine lastOk_cons_of ?_ (by decide)
  refine lastOk_cons_of ?_ (by decide)
  refine lastOk_append hdig2 ?_
  exact lastOk_cons_of hbody (by decide)

theorem stripCR_eq_self {l : List Char} (h : LastOk l) : stripCR l = l := by
  unfold stripCR
  split
  · next hl => exact absurd rfl (h '\r' hl)
  · rfl

/-! ### Lemmas: reassembling the whole file after one round trip -/

theorem pairLt_trans {a b c : Int × Int} (h1 : pairLt a b) (h2 : pairLt b c) :
    pairLt a c := by
  obtain ⟨x1, y1⟩ := a
  obtain ⟨x2, y2⟩ := b
  obtain ⟨x3, y3⟩ := c
  unfold pairLt at h1 h2 ⊢
  simp only [] at h1 h2 ⊢
  omega

theorem split_bom_of_head {s : String} {c : Char} {cs : List Char}
    (hs : s.data = c :: cs) (hc : c ≠ '\uFEFF') : split_bom s = s := by
  unfold split_bom
  split
  · next rest heq =>
    rw [hs] at heq
    injection heq with h1 h2
    exact absurd h1 hc
  · rfl

theorem parseLinesFrom_runs :
    ∀ (runs : List ((Int × Int) × List MdvdLine)) (n : Nat),
      (∀ g ∈ runs, parse_container_line (renderGroup g.1 g.2) = some (reparsedRun g.1 g.2)) →
      parseLinesFrom n (runs.map fun g => renderGroup g.1 g.2) =
        Except.ok ((runs.map fun g => reparsedRun g.1 g.2).flatten)
  | [], _ => fun _ => rfl
  | g :: runs, n => by
    intro h
    have hrec := parseLinesFrom_runs runs (n + 1)
      (fun g' hg' => h g' (List.mem_cons_of_mem _ hg'))
    show parseLinesFrom n
      (renderGroup g.1 g.2 :: runs.map fun g => renderGroup g.1 g.2) = _
    simp only [parseLinesFrom, h g (List.mem_cons_self _ _), hrec, List.map_cons,
      List.flatten_cons]

theorem rustLines_to_data (f : MdvdFile)
    (hne : groupRuns (sortLines f.v) ≠ [])
    (hkeys : ∀ g ∈ groupRuns (sortLines f.v), 0 ≤ g.1.1 ∧ 0 ≤ g.1.2)
    (hnl : ∀ g ∈ groupRuns (sortLines f.v), NoNlStr (renderGroup g.1 g.2))
    (hcr : ∀ g ∈ groupRuns (sortLines f.v), ∀ m ∈ g.2, lastNotCR m.text.data = true) :
    rustLines (to_data f) =
      (groupRuns (sortLines f.v)).map (fun g => renderGroup g.1 g.2) := by
  unfold rustLines
  have hsplit : splitNl (to_data f).data =
      ((groupRuns (sortLines f.v)).map (fun g => renderGroup g.1 g.2)).map String.data := by
    unfold to_data
    refine splitNl_joinSep _ (fun hmap => hne (List.map_eq_nil_iff.mp hmap)) ?_
    intro p hp
    obtain ⟨g, hg, hgp⟩ := List.mem_map.mp hp
    rw [← hgp]
    exact hnl g hg
  rw [hsplit]
  have hlastne : ((((groupRuns (sortLines f.v)).map
      (fun g => renderGroup g.1 g.2)).map String.data)).getLast? ≠ some [] := by
    rw [List.getLast?_map, List.getLast?_map]
    cases hgl : (groupRuns (sortLines f.v)).getLast? with
    | none => exact absurd (List.getLast?_eq_none_iff.mp hgl) hne
    | some glast =>
      have hmem : glast ∈ groupRuns (sortLines f.v) := List.mem_of_mem_getLast? hgl
      rw [Option.map_some', Option.map_some']
      intro hsome
      injection hsome with hdata
      rw [renderGroup_data glast.1 glast.2 (hkeys glast hmem).1 (hkeys glast hmem).2] at hdata
      exact absurd hdata (by simp)
  have hdrop : dropTrailingEmpty (((groupRuns (sortLines f.v)).map
      (fun g => renderGroup g.1 g.2)).map String.data) =
      ((groupRuns (sortLines f.v)).map (fun g => renderGroup g.1 g.2)).map String.data := by
    unfold dropTrailingEmpty
    rw [if_neg hlastne]
  rw [hdrop, List.map_map]
  refine Eq.trans (List.map_congr_left ?_) (List.map_id _)
  intro r hr
  obtain ⟨g, hg, hgr⟩ := List.mem_map.mp hr
  show String.mk (stripCR r.data) = r
  rw [← hgr]
  rw [stripCR_eq_self
    (lastOk_renderGroup g.1 g.2 (hkeys g hg).1 (hkeys g hg).2 (hcr g hg)), mk_data]

theorem mem_commonOfGroup_all {ms : List MdvdLine} {t : String}
    (h : t ∈ commonOfGroup ms.length (ms.map fun l => setOfList l.formatting)) :
    ∀ m ∈ ms, t ∈ m.formatting := by
  unfold commonOfGroup at h
  split at h
  · exact absurd h (by simp)
  · cases ms with
    | nil => exact absurd h (by simp [commonFold])
    | cons m0 rest =>
      rw [List.map_cons, commonFold_cons, Option.getD_some, mem_foldl_interS] at h
      intro m hm
      rcases List.mem_cons.mp hm with h1 | h1
      · subst h1
        exact (mem_setOfList t m.formatting).mp h.1
      · exact (mem_setOfList t m.formatting).mp
          (h.2 (setOfList m.formatting) (List.mem_map_of_mem _ h1))

theorem setOfList_common_diff (ms : List MdvdLine) (m : MdvdLine) (hm : m ∈ ms) :
    setOfList
      (commonOfGroup ms.length (ms.map fun l => setOfList l.formatting) ++
       diffS (setOfList m.formatting)
         (commonOfGroup ms.length (ms.map fun l => setOfList l.formatting))) =
    setOfList m.formatting := by
  refine strictSorted_eq_of_mem_iff (setOfList_pairwise _) (setOfList_pairwise _) ?_
  intro t
  rw [mem_setOfList, mem_setOfList, List.mem_append, mem_diffS, mem_setOfList]
  constructor
  · rintro (h | ⟨h1, _⟩)
    · exact mem_commonOfGroup_all h m hm
    · exact h1
  · intro ht
    by_cases hc : t ∈ commonOfGroup ms.length (ms.map fun l => setOfList l.formatting)
    · exact Or.inl hc
    · exact Or.inr ⟨ht, hc⟩

theorem reparsedRun_len (k : Int × Int) (ms : List MdvdLine) :
    (reparsedRun k ms).length = ms.length := by
  unfold reparsedRun
  rw [List.length_map]

theorem reparsedRun_texts (k : Int × Int) (ms : List MdvdLine) :
    (reparsedRun k ms).map (fun m => m.text) = ms.map (fun m => m.text) := by
  unfold reparsedRun
  rw [List.map_map]
  rfl

theorem reparsedRun_sets (k : Int × Int) (ms : List MdvdLine) :
    (reparsedRun k ms).map (fun m => setOfList m.formatting) =
      ms.map (fun m => setOfList m.formatting) := by
  unfold reparsedRun
  rw [List.map_map]
  refine List.map_congr_left ?_
  intro m hm
  exact setOfList_common_diff ms m hm

theorem reparsedRun_keys (k : Int × Int) (ms : List MdvdLine) :
    ∀ m' ∈ reparsedRun k ms, lineKey m' = k := by
  intro m' hm'
  have hm'' : m' ∈ ms.map (fun m =>
      ({ start_frame := k.1, end_frame := k.2,
         formatting := commonOfGroup ms.length (ms.map fun l => setOfList l.formatting) ++
           diffS (setOfList m.formatting)
             (commonOfGroup ms.length (ms.map fun l => setOfList l.formatting)),
         text := m.text } : MdvdLine)) := hm'
  obtain ⟨m, _, hmm'⟩ := List.mem_map.mp hm''
  rw [← hmm']
  rfl

theorem reparsedRun_ne_nil (k : Int × Int) {ms : List MdvdLine} (h : ms ≠ []) :
    reparsedRun k ms ≠ [] := by
  unfold reparsedRun
  simpa using h

theorem renderGroup_congr (k : Int × Int) (ms ms' : List MdvdLine)
    (hlen : ms'.length = ms.length)
    (htext : ms'.map (fun l => l.text) = ms.map (fun l => l.text))
    (hsets : ms'.map (fun l => setOfList l.formatting) =
      ms.map (fun l => setOfList l.formatting)) :
    renderGroup k ms' = renderGroup k ms := by
  simp only [renderGroup]
  rw [hsets, htext, hlen]

theorem renderGroup_reparsed (k k' : Int × Int) (ms : List MdvdLine) :
    renderGroup k' (reparsedRun k ms) = renderGroup k' ms :=
  renderGroup_congr k' ms (reparsedRun k ms) (reparsedRun_len k ms)
    (reparsedRun_texts k ms) (reparsedRun_sets k ms)

/-! ### Claims: the serialize-parse round trip -/

/-- C1 counterexample: on the syntactically valid input
`\x7b0\x7d\x7b25\x7d\x7b1:a\x7d\x7b0:b\x7dT1|\x7b1:a\x7dT2`, one
serialize-parse pass yields `\x7b0\x7d\x7b25\x7d\x7b1:a\x7d\x7b0:b\x7dT1|T2`
(the shared tag `1:a` is hoisted as common) but a second pass yields the
different bytes `\x7b0\x7d\x7b25\x7d\x7b0:b\x7d\x7b1:a\x7dT1|T2`: the hoisted
tag's first character `1` has no uppercase form, so the group-scope marking
does not survive reparsing and the tag is demoted to the first member.  The
two outputs do not differ merely in the ordering among hoisted common tags —
the hoisted common set itself changes from `[1:a]` to `[]` between the two
passes (last two conjuncts), so the "modulo intra-group tag ordering" proviso
cannot reconcile them. -/
theorem C1_counterexample :
    (parse_file "\x7b0\x7d\x7b25\x7d\x7b1:a\x7d\x7b0:b\x7dT1|\x7b1:a\x7dT2").map to_data =
      Except.ok "\x7b0\x7d\x7b25\x7d\x7b1:a\x7d\x7b0:b\x7dT1|T2" ∧
    (parse_file "\x7b0\x7d\x7b25\x7d\x7b1:a\x7d\x7b0:b\x7dT1|T2").map to_data =
      Except.ok "\x7b0\x7d\x7b25\x7d\x7b0:b\x7d\x7b1:a\x7dT1|T2" ∧
    ("\x7b0\x7d\x7b25\x7d\x7b0:b\x7d\x7b1:a\x7dT1|T2" : String) ≠
      "\x7b0\x7d\x7b25\x7d\x7b1:a\x7d\x7b0:b\x7dT1|T2" ∧
    commonOfGroup 2 [setOfList ["1:a", "0:b"], setOfList ["1:a"]] = ["1:a"] ∧
    commonOfGroup 2 [setOfList ["1:a", "0:b"], setOfList []] = [] := by
  exact ⟨rfl, rfl, by decide, rfl, rfl⟩

/-- C1 (amended): serialize-parse idempotence holds — even byte-for-byte, no
"modulo tag ordering" proviso needed — as soon as every sub-line of the parsed
document satisfies the round-trip side conditions `GoodLine`: every tag's first
character is cased (uppercasing it yields an uppercase character), the text
does not start with an opening brace, and the text does not end in a carriage
return.  Each condition excludes a concrete failure family (caseless tags are
demoted on reparse — the counterexample; a brace-initial text is swallowed
into the tag blocks; a trailing `\r` is eaten by `str::lines`).  -/
theorem C1_amended (s : String) (f : MdvdFile)
    (hp : parse_file s = Except.ok f)
    (hgood : ∀ m ∈ f.v, GoodLine m) :
    ∃ f', parse_file (to_data f) = Except.ok f' ∧ to_data f' = to_data f := by
  have hinv : ∀ m ∈ f.v, ParseInv m := parse_file_inv hp
  by_cases hv : f.v = []
  · have hd : to_data f = "" := by
      unfold to_data
      rw [show sortLines f.v = [] from by rw [hv]; rfl]
      rfl
    exact ⟨{ fps := 25, v := [] }, by rw [hd]; rfl, by rw [hd]; rfl⟩
  · have hsortmem : ∀ m ∈ sortLines f.v, ParseInv m ∧ GoodLine m := by
      intro m hm
      have hm' : m ∈ f.v := (sortLines_perm f.v).mem_iff.mp hm
      exact ⟨hinv m hm', hgood m hm'⟩
    have hrunkeys := groupRuns_mem_key (sortLines f.v)
    have hrunmem : ∀ g ∈ groupRuns (sortLines f.v), ∀ m ∈ g.2, ParseInv m ∧ GoodLine m :=
      fun g hg m hm => hsortmem m (mem_of_mem_groupRuns hg hm)
    have hgk : ∀ g ∈ groupRuns (sortLines f.v), 0 ≤ g.1.1 ∧ 0 ≤ g.1.2 := by
      intro g hg
      obtain ⟨hne', hkey⟩ := hrunkeys g hg
      obtain ⟨m0, hm0⟩ : ∃ m0, m0 ∈ g.2 := by
        cases hgne : g.2 with
        | nil => exact absurd hgne hne'
        | cons a l => exact ⟨a, List.mem_cons_self _ _⟩
      have hk := hkey m0 hm0
      have hiv := (hrunmem g hg m0 hm0).1
      constructor
      · have h1 : m0.start_frame = g.1.1 := congrArg Prod.fst hk
        rw [← h1]
        exact hiv.1
      · have h1 : m0.end_frame = g.1.2 := congrArg Prod.snd hk
        rw [← h1]
        exact hiv.2.1
    have hparse : ∀ g ∈ groupRuns (sortLines f.v),
        parse_container_line (renderGroup g.1 g.2) = some (reparsedRun g.1 g.2) := by
      intro g hg
      exact parse_container_line_renderGroup g.1 g.2 (hrunkeys g hg).1 (hrunkeys g hg).2
        (fun m hm => (hrunmem g hg m hm).1) (fun m hm => (hrunmem g hg m hm).2)
    have hrne : groupRuns (sortLines f.v) ≠ [] := by
      refine groupRuns_ne_nil ?_
      intro hh
      exact hv ((hh ▸ sortLines_perm f.v : List.Perm [] f.v).symm.eq_nil)
    have hnl : ∀ g ∈ groupRuns (sortLines f.v), NoNlStr (renderGroup g.1 g.2) := by
      intro g hg
      refine noNlStr_renderGroup g.1 g.2 ?_
      intro m hm
      have hiv := (hrunmem g hg m hm).1
      exact ⟨fun c hc => (hiv.2.2.2 c hc).2, fun t ht c hc => ((hiv.2.2.1 t ht).1 c hc).2⟩
    have hcr : ∀ g ∈ groupRuns (sortLines f.v), ∀ m ∈ g.2, lastNotCR m.text.data = true :=
      fun g hg m hm => (hrunmem g hg m hm).2.2.2
    have hsb : split_bom (to_data f) = to_data f := by
      obtain ⟨g0, grest, hruns⟩ : ∃ g0 grest, groupRuns (sortLines f.v) = g0 :: grest := by
        cases hr : groupRuns (sortLines f.v) with
        | nil => exact absurd hr hrne
        | cons a l => exact ⟨a, l, rfl⟩
      have hg0 := hgk g0 (by rw [hruns]; exact List.mem_cons_self _ _)
      have hhead : ∃ cs, (to_data f).data = '\x7b' :: cs := by
        unfold to_data
        rw [hruns, List.map_cons]
        cases grest with
        | nil =>
          show ∃ cs, (renderGroup g0.1 g0.2).data = '\x7b' :: cs
          rw [renderGroup_data g0.1 g0.2 hg0.1 hg0.2]
          exact ⟨_, rfl⟩
        | cons g1 gr =>
          show ∃ cs, (renderGroup g0.1 g0.2 ++ "\n" ++
            joinSep "\n" ((g1 :: gr).map fun g => renderGroup g.1 g.2)).data = '\x7b' :: cs
          rw [String.data_append, String.data_append,
            renderGroup_data g0.1 g0.2 hg0.1 hg0.2]
          exact ⟨_, rfl⟩
      obtain ⟨cs, hcs⟩ := hhead
      exact split_bom_of_head hcs (by decide)
    have hrust := rustLines_to_data f hrne hgk hnl hcr
    have hpl := parseLinesFrom_runs (groupRuns (sortLines f.v)) 0 hparse
    refine ⟨⟨25, ((groupRuns (sortLines f.v)).map fun g => reparsedRun g.1 g.2).flatten⟩,
      ?_, ?_⟩
    · unfold parse_file
      rw [hsb, hrust, hpl]
    · have hchain : List.Chain' pairLt ((groupRuns (sortLines f.v)).map Prod.fst) :=
        groupRuns_keys_strict _ (sortLines_sorted f.v)
      haveI : IsTrans (Int × Int) pairLt := ⟨fun _ _ _ h1 h2 => pairLt_trans h1 h2⟩
      have hpw : ((groupRuns (sortLines f.v)).map Prod.fst).Pairwise pairLt :=
        List.chain'_iff_pairwise.mp hchain
      have hfst : ((groupRuns (sortLines f.v)).map
          (fun g => (g.1, reparsedRun g.1 g.2))).map Prod.fst =
          (groupRuns (sortLines f.v)).map Prod.fst := by
        rw [List.map_map]
        rfl
      have hVblocks :
          (((groupRuns (sortLines f.v)).map fun g => reparsedRun g.1 g.2).flatten) =
          ((((groupRuns (sortLines f.v)).map
            (fun g => (g.1, reparsedRun g.1 g.2))).map Prod.snd).flatten) := by
        rw [List.map_map]
        rfl
      have hkeys' : ∀ g' ∈ (groupRuns (sortLines f.v)).map
          (fun g => (g.1, reparsedRun g.1 g.2)), ∀ m ∈ g'.2, lineKey m = g'.1 := by
        intro g' hg' m hm
        obtain ⟨g, hg, hgg'⟩ := List.mem_map.mp hg'
        rw [← hgg'] at hm ⊢
        exact reparsedRun_keys g.1 g.2 m hm
      have hne' : ∀ g' ∈ (groupRuns (sortLines f.v)).map
          (fun g => (g.1, reparsedRun g.1 g.2)), g'.2 ≠ [] := by
        intro g' hg'
        obtain ⟨g, hg, hgg'⟩ := List.mem_map.mp hg'
        rw [← hgg']
        exact reparsedRun_ne_nil g.1 (hrunkeys g hg).1
      have hsorted : SortedKeys
          (((groupRuns (sortLines f.v)).map fun g => reparsedRun g.1 g.2).flatten) := by
        rw [hVblocks]
        refine sortedKeys_blocks _ hkeys' ?_
        rw [hfst]
        exact hpw
      have hgr : groupRuns
          (((groupRuns (sortLines f.v)).map fun g => reparsedRun g.1 g.2).flatten) =
          (groupRuns (sortLines f.v)).map (fun g => (g.1, reparsedRun g.1 g.2)) := by
        rw [hVblocks]
        refine groupRuns_blocks _ hne' hkeys' ?_
        rw [hfst]
        exact hchain
      show joinSep "\n" ((groupRuns (sortLines
          (((groupRuns (sortLines f.v)).map fun g => reparsedRun g.1 g.2).flatten))).map
        fun g => renderGroup g.1 g.2) =
        joinSep "\n" ((groupRuns (sortLines f.v)).map fun g => renderGroup g.1 g.2)
      rw [sortLines_of_sorted hsorted, hgr, List.map_map]
      congr 1
      refine List.map_congr_left ?_
      intro g hg
      show renderGroup g.1 (reparsedRun g.1 g.2) = renderGroup g.1 g.2
      exact renderGroup_reparsed g.1 g.1 g.2

/-- Closed witness for the amended C1: the canonical two-segment input
`\x7b0\x7d\x7b25\x7d\x7bY:i\x7dText1|Text2` parses to a document whose two
sub-lines both satisfy the side conditions, and serialization is idempotent on
it. -/
theorem C1_amended_witness :
    parse_file "\x7b0\x7d\x7b25\x7d\x7bY:i\x7dText1|Text2" =
      Except.ok (⟨25, [⟨0, 25, ["y:i"], "Text1"⟩, ⟨0, 25, ["y:i"], "Text2"⟩]⟩ : MdvdFile) ∧
    (∀ m ∈ (⟨25, [⟨0, 25, ["y:i"], "Text1"⟩, ⟨0, 25, ["y:i"], "Text2"⟩]⟩ : MdvdFile).v,
      GoodLine m) ∧
    (∃ f', parse_file (to_data
        (⟨25, [⟨0, 25, ["y:i"], "Text1"⟩, ⟨0, 25, ["y:i"], "Text2"⟩]⟩ : MdvdFile)) =
          Except.ok f' ∧
      to_data f' = to_data
        (⟨25, [⟨0, 25, ["y:i"], "Text1"⟩, ⟨0, 25, ["y:i"], "Text2"⟩]⟩ : MdvdFile)) :=
  ⟨rfl, by decide, C1_amended "\x7b0\x7d\x7b25\x7d\x7bY:i\x7dText1|Text2" _ rfl (by decide)⟩

/-! ### Claims: the entry access layer and the timestamp conversions -/

/-- C10: parsing the empty string, or a string holding only a UTF-8 BOM,
succeeds with zero sub-lines and the default 25 fps; on that document
`get_subtitle_entries` returns the empty sequence and `to_data` the empty
byte sequence. -/
theorem C10_empty_input :
    parse_file "" = Except.ok { fps := 25, v := [] } ∧
    parse_file "\uFEFF" = Except.ok { fps := 25, v := [] } ∧
    get_subtitle_entries { fps := 25, v := [] } = [] ∧
    to_data { fps := 25, v := [] } = "" := by
  exact ⟨rfl, rfl, rfl, rfl⟩

/-- C9 counterexample: calling `update_subtitle_entries` with an entry list
of the wrong cardinality does not surface an explicit error value — the
`assert_eq!` aborts (modelled by `UpdateResult.panicked`, a constructor
distinct from the in-band `UpdateResult.err`); shown here on a concrete
one-line document and an empty entry list. -/
theorem C9_counterexample :
    update_subtitle_entries
      { fps := 25,
        v := [{ start_frame := 0, end_frame := 25, formatting := [], text := "Hello!" }] }
      [] = UpdateResult.panicked := by
  rfl

/-- C9 (amended): a cardinality mismatch in `update_subtitle_entries` always
aborts through the assertion (a panic, not a returned error value), before
any part of the document is modified; the error-value behavior the claim
describes is what the spec prescribes for a reimplementation, not what this
code does. -/
theorem C9_amended_panic (f : MdvdFile) (es : List SubtitleEntry)
    (h : es.length ≠ f.v.length) :
    update_subtitle_entries f es = UpdateResult.panicked := by
  unfold update_subtitle_entries
  rw [if_neg h]

/-- C9 witness: the amended theorem applied at the counterexample's input. -/
theorem C9_amended_panic_witness :
    ([] : List SubtitleEntry).length ≠
      ({ fps := 25,
         v := [{ start_frame := 0, end_frame := 25, formatting := [], text := "Hello!" }] } :
        MdvdFile).v.length ∧
    update_subtitle_entries
      { fps := 25,
        v := [{ start_frame := 0, end_frame := 25, formatting := [], text := "Hello!" }] }
      [] = UpdateResult.panicked :=
  ⟨by decide, C9_amended_panic _ _ (by decide)⟩

/-- C5: the frame-to-millisecond conversion used by `get_subtitle_entries` is
`frame_to_time` (truncated `frame * 1000 / fps`), the inverse conversion used
by `update_subtitle_entries` is `time_to_frame` applied to the entry's
seconds (`ms / 1000`); the shared truncation `ratTrunc` rounds toward zero
(floor on nonnegatives, ceiling on negatives — not nearest), and the
round-trip loses information when `fps` does not evenly divide (witnessed by
frame 1 at 3 fps). -/
theorem C5_conversions :
    (∀ (l : MdvdLine) (fps : Rat),
        to_subtitle_entry l fps =
          { start_ms := frame_to_time l.start_frame fps,
            end_ms := frame_to_time l.end_frame fps,
            line := some l.text }) ∧
    (∀ (f : MdvdFile) (es : List SubtitleEntry) (f' : MdvdFile) (i : Nat)
        (l : MdvdLine) (e : SubtitleEntry),
        update_subtitle_entries f es = UpdateResult.ok f' →
        f.v[i]? = some l → es[i]? = some e →
        ∃ l', f'.v[i]? = some l' ∧
          l'.start_frame = time_to_frame ((e.start_ms : Rat) / 1000) f.fps ∧
          l'.end_frame = time_to_frame ((e.end_ms : Rat) / 1000) f.fps) ∧
    (∀ q : Rat, ratTrunc q = if 0 ≤ q then ⌊q⌋ else ⌈q⌉) ∧
    (∃ (frame : Int) (fps : Rat), 0 < fps ∧
        time_to_frame ((frame_to_time frame fps : Rat) / 1000) fps ≠ frame) := by
  refine ⟨fun l fps => rfl, ?_, ?_, ⟨1, 3, by norm_num, ?_⟩⟩
  · intro f es f' i l e hup hl he
    unfold update_subtitle_entries at hup
    split at hup
    · next hlen =>
      injection hup with hup
      subst hup
      have hz : (f.v.zip es)[i]? = some (l, e) := by
        rw [List.getElem?_zip_eq_some]
        exact ⟨hl, he⟩
      exact ⟨_, by rw [List.getElem?_map, hz]; rfl, rfl, rfl⟩
    · exact absurd hup (by simp)
  · intro q
    by_cases h : 0 ≤ q
    · rw [if_pos h]; exact ratTrunc_eq_floor h
    · rw [if_neg h]; exact ratTrunc_eq_ceil h
  · have h1 : frame_to_time 1 3 = 333 := by
      unfold frame_to_time
      rw [ratTrunc_eq_floor (by norm_num)]
      rw [show ((1 : Int) : Rat) * 1000 / 3 = 1000 / 3 by norm_num]
      rw [Int.floor_eq_iff]
      norm_num
    rw [h1]
    have h2 : time_to_frame ((333 : Int) / 1000 : Rat) 3 = 0 := by
      unfold time_to_frame
      rw [ratTrunc_eq_floor (by norm_num)]
      rw [show ((333 : Int) : Rat) / 1000 * 3 = 999 / 1000 by norm_num]
      rw [Int.floor_eq_iff]
      norm_num
    rw [h2]
    norm_num

/-- C5 witness: the update-side conversion characterization applied to a
concrete one-line document and entry. -/
theorem C5_conversions_witness :
    ∃ f' l',
      update_subtitle_entries
        { fps := 25,
          v := [{ start_frame := 0, end_frame := 25, formatting := [], text := "a" }] }
        [{ start_ms := 40, end_ms := 1000, line := some "b" }] = UpdateResult.ok f' ∧
      f'.v[0]? = some l' ∧
      l'.start_frame = time_to_frame (((40 : Int) : Rat) / 1000) 25 ∧
      l'.end_frame = time_to_frame (((1000 : Int) : Rat) / 1000) 25 := by
  obtain ⟨l', h1, h2, h3⟩ :=
    C5_conversions.2.1
      { fps := 25,
        v := [{ start_frame := 0, end_frame := 25, formatting := [], text := "a" }] }
      [{ start_ms := 40, end_ms := 1000, line := some "b" }] _ 0
      { start_frame := 0, end_frame := 25, formatting := [], text := "a" }
      { start_ms := 40, end_ms := 1000, line := some "b" } rfl rfl rfl
  exact ⟨_, l', rfl, h1, h2, h3⟩

/-- C4: when the entry count matches the line count, `update_subtitle_entries`
succeeds; the result keeps the frame rate, the number of lines and their
order, and at each position the line's frames are recomputed from the entry's
times by the time-to-frame conversion, the formatting is untouched, and the
text is overwritten exactly when the entry carries one. -/
theorem C4_update_entries (f : MdvdFile) (es : List SubtitleEntry)
    (h : es.length = f.v.length) :
    ∃ f', update_subtitle_entries f es = UpdateResult.ok f' ∧
      f'.fps = f.fps ∧ f'.v.length = f.v.length ∧
      ∀ (i : Nat) (l : MdvdLine) (e : SubtitleEntry), f.v[i]? = some l → es[i]? = some e →
        f'.v[i]? = some
          { start_frame := time_to_frame ((e.start_ms : Rat) / 1000) f.fps,
            end_frame := time_to_frame ((e.end_ms : Rat) / 1000) f.fps,
            formatting := l.formatting,
            text :=
              match e.line with
              | some t => t
              | none => l.text } := by
  unfold update_subtitle_entries
  rw [if_pos h]
  refine ⟨_, rfl, rfl, ?_, ?_⟩
  · simp [List.length_zip, h]
  · intro i l e hl he
    have hz : (f.v.zip es)[i]? = some (l, e) := by
      rw [List.getElem?_zip_eq_some]
      exact ⟨hl, he⟩
    rw [List.getElem?_map, hz]
    rfl

/-- C4 witness: the theorem applied to a concrete one-line document with a
text-less entry (so the old text must survive). -/
theorem C4_update_entries_witness :
    ∃ f',
      update_subtitle_entries
        { fps := 25,
          v := [{ start_frame := 0, end_frame := 25, formatting := ["y:i"], text := "a" }] }
        [{ start_ms := 40, end_ms := 1000, line := none }] = UpdateResult.ok f' ∧
      f'.fps = 25 ∧ f'.v.length = 1 ∧
      ∀ (i : Nat) (l : MdvdLine) (e : SubtitleEntry),
        (({ fps := 25,
            v := [{ start_frame := 0, end_frame := 25, formatting := ["y:i"], text := "a" }] } :
          MdvdFile)).v[i]? = some l →
        ([{ start_ms := 40, end_ms := 1000, line := none }] :
          List SubtitleEntry)[i]? = some e →
        f'.v[i]? = some
          { start_frame := time_to_frame ((e.start_ms : Rat) / 1000) 25,
            end_frame := time_to_frame ((e.end_ms : Rat) / 1000) 25,
            formatting := l.formatting,
            text :=
              match e.line with
              | some t => t
              | none => l.text } :=
  C4_update_entries
    { fps := 25,
      v := [{ start_frame := 0, end_frame := 25, formatting := ["y:i"], text := "a" }] }
    [{ start_ms := 40, end_ms := 1000, line := none }] rfl

end Subparse
